import Mathlib

/-!
Shallow embedding of the expression-tree / conversion-rank engine of
`lib/AST/Expr.cpp` (early Swift compiler subsystem), together with a
verification of the natural-language specification against it.

The embedding follows the C++ source: C-style `for`/`while` loops become
index-counter recursions, sentinel integers (`-1` unbound, `-2` use-default)
are kept as `Int` values, and null pointers become `Option`.
-/

/-- Identifiers as in the source; the empty string plays the role of an
empty (absent) `Identifier`, matching `Identifier::empty()`. -/
abbrev Identifier := String

/-- ConversionRank from `Expr.h`: `CR_Identity < CR_AutoClosure < CR_Invalid`. -/
inductive ConversionRank : Type where
  | identity
  | autoClosure
  | invalid
deriving DecidableEq, Repr

/-- Numeric value of the C++ enum, used to realize `std::max` on ranks. -/
def ConversionRank.toNat : ConversionRank → Nat
  | .identity => 0
  | .autoClosure => 1
  | .invalid => 2

/-- The C++ `std::max` on `Expr::ConversionRank` (returns the second argument
when the first is strictly smaller, else the first). -/
def crMax (a b : ConversionRank) : ConversionRank :=
  if a.toNat < b.toNat then b else a

mutual

/-- Types as consumed by `Expr.cpp`: base (builtin/nominal) types, the
dependent type, tuple types with their fields, and function types.
Only the structure that `getConversionRank` inspects is represented. -/
inductive Ty : Type where
  | base : String → Ty
  | dependent : Ty
  | tuple : List TupleTypeElt → Ty
  | fn : Ty → Ty → Ty

/-- A tuple-type field `TupleTypeElt`: name (empty = unnamed), element type,
and whether a default initializer (`Init`) is present.  The C++ stores an
`Expr *Init`; only its null/non-null status is consulted here. -/
inductive TupleTypeElt : Type where
  | mk : Identifier → Ty → Bool → TupleTypeElt

end

/-- Field name of a tuple-type element. -/
def TupleTypeElt.name : TupleTypeElt → Identifier
  | .mk n _ _ => n

/-- Element type of a tuple-type element. -/
def TupleTypeElt.ty : TupleTypeElt → Ty
  | .mk _ t _ => t

/-- Whether the tuple-type element carries a default initializer
(the C++ test `Init != 0`). -/
def TupleTypeElt.hasInit : TupleTypeElt → Bool
  | .mk _ _ d => d

mutual

/-- Boolean structural equality on types. -/
def Ty.beq : Ty → Ty → Bool
  | .base a, .base b => a == b
  | .dependent, .dependent => true
  | .tuple fs, .tuple gs => TupleTypeElt.beqList fs gs
  | .fn i r, .fn i2 r2 => Ty.beq i i2 && Ty.beq r r2
  | _, _ => false

/-- Boolean equality on tuple-type elements. -/
def TupleTypeElt.beq : TupleTypeElt → TupleTypeElt → Bool
  | .mk n t d, .mk n2 t2 d2 => n == n2 && Ty.beq t t2 && d == d2

/-- Boolean equality on lists of tuple-type elements. -/
def TupleTypeElt.beqList : List TupleTypeElt → List TupleTypeElt → Bool
  | [], [] => true
  | f :: fs, g :: gs => TupleTypeElt.beq f g && TupleTypeElt.beqList fs gs
  | _, _ => false

end

/-- Modelled from the spec: `Type::getCanonicalType` lives in the external
type system (`Types.cpp`, not part of this repository snapshot); per §6 the
canonical form collapses superficial spelling differences and is used for
exact-equality comparison.  Types in this embedding are already represented
canonically, so canonicalization is the identity map. -/
def getCanonicalType (t : Ty) : Ty := t

mutual

/-- Expression nodes of `Expr.h`/`Expr.cpp`.  Source locations are omitted
(no verified operation consults them); every node carries its resolved
type handle `ty`.  `Option Expr` stands for a nullable `Expr*` slot. -/
inductive Expr : Type where
  | integerLiteral (val : String) (ty : Ty)
  | declRef (declName : String) (ty : Ty)
  | overloadSetRef (declNames : List String) (ty : Ty)
  | unresolvedDeclRef (name : String) (ty : Ty)
  | unresolvedMember (name : String) (ty : Ty)
  | unresolvedScopedIdentifier (typeDeclName : String) (name : String) (ty : Ty)
  | tuple (subExprs : List (Option Expr)) (groupingParen : Bool) (ty : Ty)
  | unresolvedDot (subExpr : Option Expr) (name : String) (ty : Ty)
  | tupleElement (subExpr : Expr) (fieldNo : Nat) (ty : Ty)
  | apply (fn : Expr) (arg : Expr) (ty : Ty)
  | seq (elements : List Expr) (ty : Ty)
  | brace (elements : List BraceElt) (ty : Ty)
  | closure (input : Expr) (ty : Ty)
  | anonClosureArg (argNo : Nat) (ty : Ty)
  | binary (fn : Option Expr) (lhs : Expr) (rhs : Expr) (ty : Ty)

/-- An element of a `BraceExpr`: the C++ `PointerUnion<Expr*, Decl*>`;
a `ValueDecl` carries a nullable initializer expression that the walker
descends into, any other `Decl` is opaque to this subsystem. -/
inductive BraceElt : Type where
  | expr (e : Expr)
  | valueDecl (name : String) (initExpr : Option Expr)
  | otherDecl (name : String)

end

/-- The resolved type handle of a node (the C++ `E->Ty`). -/
def Expr.ty : Expr → Ty
  | .integerLiteral _ t => t
  | .declRef _ t => t
  | .overloadSetRef _ t => t
  | .unresolvedDeclRef _ t => t
  | .unresolvedMember _ t => t
  | .unresolvedScopedIdentifier _ _ t => t
  | .tuple _ _ t => t
  | .unresolvedDot _ _ t => t
  | .tupleElement _ _ t => t
  | .apply _ _ t => t
  | .seq _ t => t
  | .brace _ t => t
  | .closure _ t => t
  | .anonClosureArg _ t => t
  | .binary _ _ _ t => t

/-- Modelled from the spec: `TupleExpr::isGroupingParen` is declared in the
missing `Expr.h`; per §3 a tuple node supports a "grouping parenthesis"
flag for the single-element case.  It is represented as the node's
`groupingParen` field. -/
def Expr.isGroupingParen : Expr → Bool
  | .tuple _ g _ => g
  | _ => false

/-- The inner loop of pass 1 of `getTupleToTupleTypeConversionRank`
(`Expr.cpp` lines 131-136): scan `IdentList` for the first index `j`
with `IdentList[j] == Name`, returning `-1` if none is found before
`NumExprElements`.  The first argument counts the remaining iterations
(`NumExprElements - j`), making the loop a structural recursion. -/
def findNamedInputFrom (identList : List Identifier) (name : Identifier) :
    Nat → Nat → Int
  | 0, _ => -1
  | rem + 1, j =>
    if identList.getD j "" == name then Int.ofNat j
    else findNamedInputFrom identList name rem (j + 1)

/-- Pass 1 of `getTupleToTupleTypeConversionRank` (`Expr.cpp` lines
125-141): for each destination field (index `i`) with a non-empty name,
look for an input element with that name; if found, record it in
`DestElementSources` and mark it used.  The first argument counts the
remaining loop iterations. -/
def pass1From (identList : List Identifier) (numExprElements : Nat)
    (destFields : List TupleTypeElt) :
    Nat → Nat → List Int → List Bool → (List Int × List Bool)
  | 0, _, ds, used => (ds, used)
  | rem + 1, i, ds, used =>
    match destFields.get? i with
    | none => (ds, used)
    | some destElt =>
      if destElt.name.isEmpty then
        pass1From identList numExprElements destFields rem (i + 1) ds used
      else
        let inputElement := findNamedInputFrom identList destElt.name
          numExprElements 0
        if inputElement == -1 then
          pass1From identList numExprElements destFields rem (i + 1) ds used
        else
          pass1From identList numExprElements destFields rem (i + 1)
            (ds.set i inputElement) (used.set inputElement.toNat true)

/-- The `while (1)` scan of pass 2 (`Expr.cpp` lines 152-162): starting at
`next`, advance past input values that are used or named, stopping at
`numExprElements` or at the first unused, unnamed input value.  The first
argument counts the remaining iterations (`numExprElements - next`). -/
def scanForUnnamed (used : List Bool) (identList : List Identifier)
    (numExprElements : Nat) : Nat → Nat → Nat
  | 0, next => next
  | rem + 1, next =>
    if next == numExprElements then next
    else if !used.getD next false && (identList.getD next "").isEmpty then next
    else scanForUnnamed used identList numExprElements rem (next + 1)

/-- Pass 2 of `getTupleToTupleTypeConversionRank` (`Expr.cpp` lines
144-180): resolve (in order) the destination fields not already matched,
against left-over unnamed input values; a field reached after the input is
exhausted uses its default value (`-2`) when present, and otherwise the
whole reconciliation is `CR_Invalid` (here: `none`).  The first argument
counts the remaining loop iterations. -/
def pass2From (identList : List Identifier) (destFields : List TupleTypeElt)
    (numExprElements : Nat) :
    Nat → Nat → List Int → List Bool → Nat → Option (List Int × List Bool)
  | 0, _, ds, used, _ => some (ds, used)
  | rem + 1, i, ds, used, next =>
    match destFields.get? i with
    | none => some (ds, used)
    | some destElt =>
      if ds.getD i (-1) != -1 then
        pass2From identList destFields numExprElements rem (i + 1) ds used next
      else
        let k := scanForUnnamed used identList numExprElements
          (numExprElements - next) next
        if k == numExprElements then
          if !destElt.hasInit then none
          else
            pass2From identList destFields numExprElements rem (i + 1)
              (ds.set i (-2)) used k
        else
          pass2From identList destFields numExprElements rem (i + 1)
            (ds.set i (Int.ofNat k)) (used.set k true) k

/-- The `IdentList` computation of `getTupleToTupleTypeConversionRank`
(`Expr.cpp` lines 109, 118-121): element names are taken from the
expression's tuple type when it has one, and stay empty otherwise. -/
def identListOf (E : Expr) (numExprElements : Nat) : List Identifier :=
  match E.ty with
  | .tuple fs => fs.map TupleTypeElt.name
  | _ => List.replicate numExprElements ""

/-- The element-binding portion of `getTupleToTupleTypeConversionRank`
(`Expr.cpp` lines 109-180): pass 1 (named matching, only when the
expression's type is a tuple type) followed by pass 2 (positional matching
with defaults).  Returns the final `DestElementSources` and `UsedElements`
arrays, or `none` when pass 2 reports `CR_Invalid`. -/
def reconcileSources (E : Expr) (numExprElements : Nat)
    (destFields : List TupleTypeElt) : Option (List Int × List Bool) :=
  let identList := identListOf E numExprElements
  let used0 := List.replicate numExprElements false
  let ds0 := List.replicate destFields.length (-1 : Int)
  let p1 :=
    match E.ty with
    | .tuple _ => pass1From identList numExprElements destFields
        destFields.length 0 ds0 used0
    | _ => (ds0, used0)
  pass2From identList destFields numExprElements destFields.length 0
    p1.1 p1.2 0

/-- The structural-mode element check of `getTupleToTupleTypeConversionRank`
(`Expr.cpp` lines 216-235): each destination field bound to an actual
source element must have exactly matching canonical element types;
otherwise `CR_Invalid`.  Fields bound to `-2` use their default value and
are skipped.  The first argument counts the remaining loop iterations. -/
def structuralLoop (etyFields destFields : List TupleTypeElt)
    (ds : List Int) : Nat → Nat → ConversionRank
  | 0, _ => .identity
  | rem + 1, i =>
    match destFields.get? i with
    | none => .identity
    | some destElt =>
      let srcField := ds.getD i (-1)
      if srcField == -2 then structuralLoop etyFields destFields ds rem (i + 1)
      else
        match etyFields.get? srcField.toNat with
        | none => .invalid
        | some srcElt =>
          if Ty.beq (getCanonicalType srcElt.ty) (getCanonicalType destElt.ty)
          then structuralLoop etyFields destFields ds rem (i + 1)
          else .invalid

/-- Modelled from the spec: `TupleType::getFieldForScalarInit` is declared
in the missing `Types.h`; per §4.4 step 3b it designates the unique field
without a default value ("scalar-eligible"), returning `-1` when the tuple
does not have exactly one such field. -/
def getFieldForScalarInit (fields : List TupleTypeElt) : Int :=
  if (fields.filter (fun f => !f.hasInit)).length == 1 then
    Int.ofNat (fields.findIdx (fun f => !f.hasInit))
  else -1

/-- The grouping-parenthesis unwrap test of `getConversionRank`
(`Expr.cpp` lines 255-257): a `TupleExpr` with the grouping flag yields
its sole sub-expression (`SubExprs[0]`). -/
def groupingSub : Expr → Option Expr
  | .tuple (some e0 :: _) true _ => some e0
  | _ => none

/-- The `dyn_cast<TupleExpr>(E)` test of `getConversionRank`. -/
def isTupleExpr : Expr → Bool
  | .tuple _ _ _ => true
  | _ => false

/-- The `TE->NumSubExprs` accessor, meaningful under `isTupleExpr`. -/
def numSubExprsOf : Expr → Nat
  | .tuple subExprs _ _ => subExprs.length
  | _ => 0

/-- Fields of a tuple type (the `getAs<TupleType>` view); the empty list
stands for the null pointer of a failed cast. -/
def tupleFieldsOfTy : Ty → List TupleTypeElt
  | .tuple fs => fs
  | _ => []

/-- Size bound used for termination: the unwrapped grouping sub-expression
is structurally smaller than its tuple node. -/
def groupingSub_sizeOf {E e0 : Expr} (h : groupingSub E = some e0) :
    sizeOf e0 < sizeOf E := by
  unfold groupingSub at h
  split at h
  · rename_i subExprs x rest t
    cases h
    simp
    omega
  · cases h

/-- Size bound used for termination: a tuple-type element dominates its
element type. -/
def tupleTypeElt_ty_sizeOf (f : TupleTypeElt) : sizeOf f.ty < sizeOf f := by
  cases f
  simp [TupleTypeElt.ty]
  omega

mutual

/-- Translation of `getConversionRank` (`Expr.cpp` lines 244-290): the rank
for converting a value `E` to type `DestTy`.  The `DependentType` assert of
line 246 is a precondition, not behaviour, and is not modelled. -/
def getConversionRank (E : Expr) (DestTy : Ty) : ConversionRank :=
  if Ty.beq (getCanonicalType E.ty) (getCanonicalType DestTy) then .identity
  else
    match hG : groupingSub E with
    | some e0 => getConversionRank e0 DestTy
    | none =>
      match DestTy with
      | .tuple ttFields =>
        if isTupleExpr E then
          getTupleToTupleTypeConversionRank E (numSubExprsOf E) ttFields
        else
          let scalarFieldNo := getFieldForScalarInit ttFields
          if scalarFieldNo != -1 then
            match hf : ttFields.get? scalarFieldNo.toNat with
            | some f => getConversionRank E f.ty
            | none => .invalid
          else
            match E.ty with
            | .tuple etyFields =>
              getTupleToTupleTypeConversionRank E etyFields.length ttFields
            | _ => .invalid
      | .fn _ fnResult =>
        if getConversionRank E fnResult == .invalid then .invalid
        else .autoClosure
      | _ => .invalid
termination_by (sizeOf E + sizeOf DestTy, 0)
decreasing_by
  · exact Prod.Lex.left _ _ (by have := groupingSub_sizeOf hG; omega)
  · exact Prod.Lex.left _ _ (by simp <;> omega)
  · have hm : f ∈ ttFields := List.get?_mem hf
    have h1 : sizeOf f < sizeOf ttFields := List.sizeOf_lt_of_mem hm
    have h2 : sizeOf f.ty < sizeOf f := tupleTypeElt_ty_sizeOf f
    exact Prod.Lex.left _ _ (by simp <;> omega)
  · exact Prod.Lex.left _ _ (by simp <;> omega)
  · exact Prod.Lex.left _ _ (by simp <;> omega)

/-- Translation of `getTupleToTupleTypeConversionRank` (`Expr.cpp` lines
101-236): reconcile the elements with the destination fields (passes 1-2),
fail if any input element is left unused (pass 3), then compute the rank in
literal mode (element-wise recursive ranking, in-place conversion of a
`TupleExpr` whose shape matches) or structural mode (exact canonical type
agreement of each bound pair). -/
def getTupleToTupleTypeConversionRank (E : Expr) (numExprElements : Nat)
    (destFields : List TupleTypeElt) : ConversionRank :=
  match reconcileSources E numExprElements destFields with
  | none => .invalid
  | some (ds, used) =>
    if !(used.all (fun b => b)) then .invalid
    else
      match E with
      | .tuple subExprs _ _ =>
        if subExprs.length != 1 && subExprs.length == destFields.length then
          tupleLiteralRankLoop subExprs destFields ds destFields.length 0
            .identity
        else structuralLoop (tupleFieldsOfTy E.ty) destFields ds
          destFields.length 0
      | _ => structuralLoop (tupleFieldsOfTy E.ty) destFields ds
          destFields.length 0
termination_by (sizeOf E + sizeOf destFields, 0)
decreasing_by
  · exact Prod.Lex.left _ _ (by simp <;> omega)

/-- The literal-mode rank loop of `getTupleToTupleTypeConversionRank`
(`Expr.cpp` lines 192-213): the rank of the tuple is the worst case of the
rank of each of its bound elements against the corresponding destination
element type; fields using their default value (`-2`) are skipped.  The
fourth argument counts the remaining loop iterations.  An out-of-range or
null bound element would be undefined behaviour in the C++ and is mapped
to `CR_Invalid`. -/
def tupleLiteralRankLoop (subExprs : List (Option Expr))
    (destFields : List TupleTypeElt) (ds : List Int) :
    Nat → Nat → ConversionRank → ConversionRank
  | 0, _, curRank => curRank
  | rem + 1, i, curRank =>
    match hd : destFields.get? i with
    | none => curRank
    | some destElt =>
      let srcField := ds.getD i (-1)
      if srcField == -2 then
        tupleLiteralRankLoop subExprs destFields ds rem (i + 1) curRank
      else
        match hs : subExprs.get? srcField.toNat with
        | some (some elt) =>
          tupleLiteralRankLoop subExprs destFields ds rem (i + 1)
            (crMax curRank (getConversionRank elt destElt.ty))
        | _ => .invalid
termination_by rem i curRank => (sizeOf subExprs + sizeOf destFields, rem)
decreasing_by
  · exact Prod.Lex.right _ (by omega)
  · have hm : some elt ∈ subExprs := List.get?_mem hs
    have h1 : sizeOf (some elt) < sizeOf subExprs := List.sizeOf_lt_of_mem hm
    have hm2 : destElt ∈ destFields := List.get?_mem hd
    have h2 : sizeOf destElt < sizeOf destFields := List.sizeOf_lt_of_mem hm2
    have h3 : sizeOf destElt.ty < sizeOf destElt :=
      tupleTypeElt_ty_sizeOf destElt
    exact Prod.Lex.left _ _ (by simp at h1 ⊢; omega)
  · exact Prod.Lex.right _ (by omega)

end

/-- The `Expr::WalkOrder` enumeration: the visitor runs before
(`Walk_PreOrder`) and after (`Walk_PostOrder`) the children are visited. -/
inductive WalkOrder : Type where
  | preOrder
  | postOrder
deriving DecidableEq, Repr

mutual

/-- Translation of `ExprWalker::ProcessNode` (`Expr.cpp` lines 412-421).
The C++ function pointer with its mutable `void *Data` becomes a visitor in
state-passing style: `Fn E order s` yields the returned `Expr*` (`none` for
null) and the updated client data.  A null pre-order result skips the
node's children and returns the original node; otherwise the children are
visited and the post-order result (null = abort) is the result. -/
def processNode {σ : Type} (Fn : Expr → WalkOrder → σ → Option Expr × σ)
    (E : Expr) (s : σ) : Option Expr × σ :=
  match Fn E .preOrder s with
  | (none, s1) => (some E, s1)
  | (some _, s1) =>
    match visitExpr Fn E s1 with
    | (none, s2) => (none, s2)
    | (some e2, s2) => Fn e2 .postOrder s2

/-- Translation of `ExprWalker::Visit*` (`Expr.cpp` lines 315-410): process
every structural child of the node, storing each rewritten child back in
its slot; a null child result aborts immediately (remaining children are
not visited).  In-place slot mutation becomes node rebuilding. -/
def visitExpr {σ : Type} (Fn : Expr → WalkOrder → σ → Option Expr × σ)
    (E : Expr) (s : σ) : Option Expr × σ :=
  match E with
  | .integerLiteral _ _ => (some E, s)
  | .declRef _ _ => (some E, s)
  | .overloadSetRef _ _ => (some E, s)
  | .unresolvedDeclRef _ _ => (some E, s)
  | .unresolvedMember _ _ => (some E, s)
  | .unresolvedScopedIdentifier _ _ _ => (some E, s)
  | .tuple subExprs g t =>
    match processOptExprList Fn subExprs s with
    | (none, s1) => (none, s1)
    | (some es2, s1) => (some (.tuple es2 g t), s1)
  | .unresolvedDot none _ _ => (some E, s)
  | .unresolvedDot (some sub) n t =>
    match processNode Fn sub s with
    | (none, s1) => (none, s1)
    | (some e2, s1) => (some (.unresolvedDot (some e2) n t), s1)
  | .tupleElement sub f t =>
    match processNode Fn sub s with
    | (none, s1) => (none, s1)
    | (some e2, s1) => (some (.tupleElement e2 f t), s1)
  | .apply f a t =>
    match processNode Fn f s with
    | (none, s1) => (none, s1)
    | (some f2, s1) =>
      match processNode Fn a s1 with
      | (none, s2) => (none, s2)
      | (some a2, s2) => (some (.apply f2 a2 t), s2)
  | .seq es t =>
    match processExprList Fn es s with
    | (none, s1) => (none, s1)
    | (some es2, s1) => (some (.seq es2 t), s1)
  | .brace es t =>
    match processBraceList Fn es s with
    | (none, s1) => (none, s1)
    | (some es2, s1) => (some (.brace es2 t), s1)
  | .closure inp t =>
    match processNode Fn inp s with
    | (none, s1) => (none, s1)
    | (some e2, s1) => (some (.closure e2 t), s1)
  | .anonClosureArg _ _ => (some E, s)
  | .binary fe l r t =>
    match processNode Fn l s with
    | (none, s1) => (none, s1)
    | (some l2, s1) =>
      match processNode Fn r s1 with
      | (none, s2) => (none, s2)
      | (some r2, s2) => (some (.binary fe l2 r2 t), s2)

/-- The `VisitTupleExpr` loop (`Expr.cpp` lines 324-333): null slots are
preserved untouched, non-null slots are processed in order and a null
result aborts immediately. -/
def processOptExprList {σ : Type}
    (Fn : Expr → WalkOrder → σ → Option Expr × σ) :
    List (Option Expr) → σ → Option (List (Option Expr)) × σ
  | [], s => (some [], s)
  | none :: rest, s =>
    match processOptExprList Fn rest s with
    | (none, s1) => (none, s1)
    | (some rest2, s1) => (some (none :: rest2), s1)
  | some e :: rest, s =>
    match processNode Fn e s with
    | (none, s1) => (none, s1)
    | (some e2, s1) =>
      match processOptExprList Fn rest s1 with
      | (none, s2) => (none, s2)
      | (some rest2, s2) => (some (some e2 :: rest2), s2)

/-- The `VisitSequenceExpr` loop (`Expr.cpp` lines 362-369): elements are
processed in order and a null result aborts immediately. -/
def processExprList {σ : Type}
    (Fn : Expr → WalkOrder → σ → Option Expr × σ) :
    List Expr → σ → Option (List Expr) × σ
  | [], s => (some [], s)
  | e :: rest, s =>
    match processNode Fn e s with
    | (none, s1) => (none, s1)
    | (some e2, s1) =>
      match processExprList Fn rest s1 with
      | (none, s2) => (none, s2)
      | (some rest2, s2) => (some (e2 :: rest2), s2)

/-- The `VisitBraceExpr` loop (`Expr.cpp` lines 370-390): expression
elements are processed; a `ValueDecl` with a non-null initializer has the
initializer processed and stored back; other declarations are skipped. -/
def processBraceList {σ : Type}
    (Fn : Expr → WalkOrder → σ → Option Expr × σ) :
    List BraceElt → σ → Option (List BraceElt) × σ
  | [], s => (some [], s)
  | .expr e :: rest, s =>
    match processNode Fn e s with
    | (none, s1) => (none, s1)
    | (some e2, s1) =>
      match processBraceList Fn rest s1 with
      | (none, s2) => (none, s2)
      | (some rest2, s2) => (some (.expr e2 :: rest2), s2)
  | .valueDecl n (some init0) :: rest, s =>
    match processNode Fn init0 s with
    | (none, s1) => (none, s1)
    | (some e2, s1) =>
      match processBraceList Fn rest s1 with
      | (none, s2) => (none, s2)
      | (some rest2, s2) => (some (.valueDecl n (some e2) :: rest2), s2)
  | .valueDecl n none :: rest, s =>
    match processBraceList Fn rest s with
    | (none, s1) => (none, s1)
    | (some rest2, s1) => (some (.valueDecl n none :: rest2), s1)
  | .otherDecl n :: rest, s =>
    match processBraceList Fn rest s with
    | (none, s1) => (none, s1)
    | (some rest2, s1) => (some (.otherDecl n :: rest2), s1)

end

/-- Translation of `Expr::WalkExpr` (`Expr.cpp` lines 440-443), via
`ExprWalker::doIt`: process the root node. -/
def walkExpr {σ : Type} (Fn : Expr → WalkOrder → σ → Option Expr × σ)
    (E : Expr) (s : σ) : Option Expr × σ :=
  processNode Fn E s

/-- The expressions a tuple node's slot list makes the walker visit: null
slots are skipped, non-null slots are visited in order (the traversal of
`VisitTupleExpr`, `Expr.cpp` lines 324-333). -/
def optChildSlots : List (Option Expr) → List Expr
  | [] => []
  | none :: rest => optChildSlots rest
  | some e :: rest => e :: optChildSlots rest

/-- The expressions a brace element list makes the walker visit:
expression elements and the non-null initializers of value declarations,
in order (the traversal of `VisitBraceExpr`, `Expr.cpp` lines 370-390). -/
def braceChildSlots : List BraceElt → List Expr
  | [] => []
  | .expr e :: rest => e :: braceChildSlots rest
  | .valueDecl _ (some init0) :: rest => init0 :: braceChildSlots rest
  | .valueDecl _ none :: rest => braceChildSlots rest
  | .otherDecl _ :: rest => braceChildSlots rest

/-- The structural children of a node in exactly the order the walker's
`Visit*` methods process them (`Expr.cpp` lines 315-410): tuple slots,
member-projection sub-expressions, application callee then argument,
sequence elements, brace items with declaration initializers, closure
input, and binary left then right operand (a binary node's `Fn` slot is
not walked); reference and literal leaves have none. -/
def childSlots : Expr → List Expr
  | .integerLiteral _ _ => []
  | .declRef _ _ => []
  | .overloadSetRef _ _ => []
  | .unresolvedDeclRef _ _ => []
  | .unresolvedMember _ _ => []
  | .unresolvedScopedIdentifier _ _ _ => []
  | .tuple subExprs _ _ => optChildSlots subExprs
  | .unresolvedDot none _ _ => []
  | .unresolvedDot (some sub) _ _ => [sub]
  | .tupleElement sub _ _ => [sub]
  | .apply f a _ => [f, a]
  | .seq es _ => es
  | .brace es _ => braceChildSlots es
  | .closure input _ => [input]
  | .anonClosureArg _ _ => []
  | .binary _ l r _ => [l, r]

/-- The guard of the in-place (literal-mode) conversion branch
(`Expr.cpp` line 191): the expression is a `TupleExpr` whose element count
is not 1 and equals the destination field count. -/
def usesLiteralBranch (E : Expr) (destFields : List TupleTypeElt) : Bool :=
  match E with
  | .tuple subExprs _ _ =>
    subExprs.length != 1 && subExprs.length == destFields.length
  | _ => false

/-- The contribution of one destination field (paired with its binding) to
the specification's literal-mode rank: fields bound to "use default" are
skipped, fields bound to an actual source element contribute the recursive
rank of that element against the field's type. -/
def specLiteralPairRank (subExprs : List (Option Expr))
    (p : TupleTypeElt × Int) : Option ConversionRank :=
  if p.2 == -2 then none
  else
    match subExprs.getD p.2.toNat none with
    | some elt => some (getConversionRank elt p.1.ty)
    | none => none

/-- Literal-mode rank computation as the specification words it (§4.4.1):
for each destination field bound to an actual source element, recursively
compute the rank of that source element against the field's type, skipping
fields bound to "use default"; the reconciliation's rank is the maximum
over all computed ranks, `Identity` if the set is empty. -/
def specLiteralModeRank (subExprs : List (Option Expr))
    (destFields : List TupleTypeElt) (ds : List Int) : ConversionRank :=
  ((destFields.zip ds).filterMap (specLiteralPairRank subExprs)).foldl
    crMax .identity

/-- Whether one destination field (paired with its binding) passes the
specification's structural-mode check: its bound source element's type is
canonically equal to the field's type. -/
def specStructuralPairOk (etyFields : List TupleTypeElt)
    (p : TupleTypeElt × Int) : Bool :=
  match etyFields.get? p.2.toNat with
  | some srcElt =>
    Ty.beq (getCanonicalType srcElt.ty) (getCanonicalType p.1.ty)
  | none => false

/-- Structural-mode rank computation as the specification words it
(§4.4.1): every destination field bound to an actual source element must
have its bound element's type canonically equal to the field's type; any
mismatch makes the whole reconciliation `Invalid`, and if all bound pairs
match the result is `Identity`. -/
def specStructuralModeRank (etyFields destFields : List TupleTypeElt)
    (ds : List Int) : ConversionRank :=
  if ((destFields.zip ds).filter (fun p => p.2 != -2)).all
      (specStructuralPairOk etyFields)
  then .identity else .invalid

/-- Position `j` holds the first source element carrying name `name` among
the first `n` source elements (no condition on being unused). -/
def isFirstMatch (identList : List Identifier) (n : Nat)
    (name : Identifier) (j : Nat) : Prop :=
  j < n ∧ identList.getD j "" = name ∧
    ∀ j', j' < j → identList.getD j' "" ≠ name

/-- The pass-2 cursor scan as the specification words it: the first
unused, unnamed source element at or after the cursor, if any. -/
def specFindUnnamed (identList : List Identifier) (used : List Bool)
    (n cursor : Nat) : Option Nat :=
  (List.range' cursor (n - cursor)).find? (fun k =>
    !used.getD k false && (identList.getD k "").isEmpty)

/-- Pass 2 as the specification words it (§4.4.1 pass 2): a cursor,
starting at 0, is advanced past used or named source elements; a
still-unresolved field is bound to the found element (the cursor then
moves past it), or to "use default" when the source is exhausted and the
field has a default value, the whole reconciliation failing otherwise. -/
def specPass2From (identList : List Identifier)
    (destFields : List TupleTypeElt) (n : Nat) :
    Nat → Nat → List Int → List Bool → Nat → Option (List Int × List Bool)
  | 0, _, ds, used, _ => some (ds, used)
  | rem + 1, i, ds, used, cursor =>
    match destFields.get? i with
    | none => some (ds, used)
    | some destElt =>
      if ds.getD i (-1) != -1 then
        specPass2From identList destFields n rem (i + 1) ds used cursor
      else
        match specFindUnnamed identList used n cursor with
        | some k =>
          specPass2From identList destFields n rem (i + 1)
            (ds.set i (Int.ofNat k)) (used.set k true) (k + 1)
        | none =>
          if destElt.hasInit then
            specPass2From identList destFields n rem (i + 1)
              (ds.set i (-2)) used n
          else none

/-- The builtin integer type used by the concrete test inputs. -/
def exIntTy : Ty := .base "Int"

/-- An unnamed, default-less `Int` tuple field. -/
def exUnnamedInt : TupleTypeElt := .mk "" exIntTy false

/-- An integer-literal expression of type `Int`. -/
def exLit (v : String) : Expr := .integerLiteral v exIntTy

/-- The tuple literal `(1, 2)` with type `(Int, Int)`. -/
def exPairLit : Expr :=
  .tuple [some (exLit "1"), some (exLit "2")] false
    (.tuple [exUnnamedInt, exUnnamedInt])

/-- A zero-argument function type producing `Int`. -/
def exFnTy : Ty := .fn (.tuple []) exIntTy

/-- A single-element (non-grouping) tuple literal `(.x = v)` of type
`(x : Int)`; its element count of 1 rules the literal-mode branch out. -/
def exC1Lit : Expr :=
  .tuple [some (.declRef "v" exIntTy)] false (.tuple [.mk "x" exIntTy false])

/-- Destination fields `(x : () -> Int)` for the literal-mode
counterexample. -/
def exC1Dest : List TupleTypeElt := [.mk "x" exFnTy false]

/-- The swizzle literal `(.y = 4, .x = 3)` of type `(y : Int, x : Int)`. -/
def exSwizzleLit : Expr :=
  .tuple [some (exLit "4"), some (exLit "3")] false
    (.tuple [.mk "y" exIntTy false, .mk "x" exIntTy false])

/-- Destination fields `(x : Int, y : Int)` for the swizzle example. -/
def exSwizzleDest : List TupleTypeElt :=
  [.mk "x" exIntTy false, .mk "y" exIntTy false]

/-- Destination fields `(a : Int = d, a : Int = d)` sharing one name, used
by the pass-1 counterexample. -/
def exDupDest : List TupleTypeElt :=
  [.mk "a" exIntTy true, .mk "a" exIntTy true]

/-- A non-literal source expression whose tuple type repeats the field
name `a`. -/
def exDupRef : Expr :=
  .declRef "t" (.tuple [.mk "a" exIntTy false, .mk "a" exIntTy false])

/-- The tuple type `(x : Int, y : Int)` of the permutation source. -/
def exPermSrcFields : List TupleTypeElt :=
  [.mk "x" exIntTy false, .mk "y" exIntTy false]

/-- A non-literal source expression of type `(x : Int, y : Int)`. -/
def exPermRef : Expr := .declRef "t" (.tuple exPermSrcFields)

/-- Destination fields `(y : Int, x : Int)` for the structural-mode
permutation example. -/
def exPermDest : List TupleTypeElt :=
  [.mk "y" exIntTy false, .mk "x" exIntTy false]

/-- A short printable tag for walker-trace test visitors. -/
def exTag : Expr → String
  | .declRef n _ => n
  | .integerLiteral v _ => v
  | .apply _ _ _ => "apply"
  | .seq _ _ => "seq"
  | _ => "other"

/-- A logging visitor that aborts (returns null) at the post-order visit
of the declaration reference `f` and records every invocation. -/
def exAbortVisitor : Expr → WalkOrder → List (String × WalkOrder) →
    Option Expr × List (String × WalkOrder) :=
  fun E ord log =>
    (if exTag E == "f" && ord == .postOrder then none else some E,
     log ++ [(exTag E, ord)])

/-- A logging visitor that rejects (returns null) at the pre-order visit
of the declaration reference `b` and records every invocation. -/
def exRejectVisitor : Expr → WalkOrder → List (String × WalkOrder) →
    Option Expr × List (String × WalkOrder) :=
  fun E ord log =>
    (if exTag E == "b" && ord == .preOrder then none else some E,
     log ++ [(exTag E, ord)])

/-- A visitor returning a fresh node at every pre-order visit (which the
walker must ignore) and the incoming node at post-order, counting its
invocations in the state. -/
def exReplaceVisitor : Expr → WalkOrder → Nat → Option Expr × Nat :=
  fun E ord s =>
    (if ord == .preOrder then some (.integerLiteral "999" (.base "Int"))
     else some E, s + 1)

/-- The application node `f(x)` used by the walker-abort example. -/
def exApplyNode : Expr :=
  .apply (.declRef "f" exIntTy) (.declRef "x" exIntTy) exIntTy

/-! Helper lemmas about list indexing used throughout the verification. -/

theorem getD_set_ne {α : Type} :
    ∀ (l : List α) (i j : Nat) (v d : α), i ≠ j →
      (l.set i v).getD j d = l.getD j d := by
  intro l
  induction l with
  | nil => intro i j v d _; rfl
  | cons a t ih =>
    intro i j v d hne
    cases i with
    | zero =>
      cases j with
      | zero => exact absurd rfl hne
      | succ j' =>
        show (v :: t).getD (j' + 1) d = (a :: t).getD (j' + 1) d
        simp only [List.getD_cons_succ]
    | succ i' =>
      cases j with
      | zero =>
        show (a :: t.set i' v).getD 0 d = (a :: t).getD 0 d
        simp only [List.getD_cons_zero]
      | succ j' =>
        show (a :: t.set i' v).getD (j' + 1) d = (a :: t).getD (j' + 1) d
        simp only [List.getD_cons_succ]
        exact ih i' j' v d (by omega)

theorem getD_set_self {α : Type} :
    ∀ (l : List α) (i : Nat) (v d : α), i < l.length →
      (l.set i v).getD i d = v := by
  intro l
  induction l with
  | nil => intro i v d h; simp at h
  | cons a t ih =>
    intro i v d h
    cases i with
    | zero =>
      show (v :: t).getD 0 d = v
      simp only [List.getD_cons_zero]
    | succ i' =>
      show (a :: t.set i' v).getD (i' + 1) d = v
      simp only [List.getD_cons_succ]
      exact ih i' v d (by simp at h; omega)

theorem getD_replicate {α : Type} :
    ∀ (n k : Nat) (a d : α), k < n → (List.replicate n a).getD k d = a := by
  intro n
  induction n with
  | zero => intro k a d h; omega
  | succ n' ih =>
    intro k a d h
    cases k with
    | zero => simp [List.replicate_succ]
    | succ k' =>
      simp only [List.replicate_succ, List.getD_cons_succ]
      exact ih k' a d (by omega)

theorem getD_cons_drop {α : Type} :
    ∀ (l : List α) (i : Nat) (d : α), i < l.length →
      l.drop i = l.getD i d :: l.drop (i + 1) := by
  intro l
  induction l with
  | nil => intro i d h; simp at h
  | cons a t ih =>
    intro i d h
    cases i with
    | zero => rfl
    | succ i' =>
      simp only [List.drop_succ_cons, List.getD_cons_succ]
      exact ih i' d (by simp at h; omega)

theorem get?_some_lt {α : Type} (l : List α) (i : Nat) (a : α)
    (h : l.get? i = some a) : i < l.length :=
  (List.get?_eq_some.mp h).1

theorem get?_eq_getD {α : Type} :
    ∀ (l : List α) (i : Nat) (d : α), i < l.length →
      l.get? i = some (l.getD i d) := by
  intro l
  induction l with
  | nil => intro i d h; simp at h
  | cons a t ih =>
    intro i d h
    cases i with
    | zero => rfl
    | succ i' => exact ih i' d (by simp at h; omega)

mutual

/-- Reflexivity of the structural type equality. -/
theorem tyBeq_refl : ∀ t : Ty, Ty.beq t t = true
  | .base s => by simp [Ty.beq]
  | .dependent => by simp [Ty.beq]
  | .tuple fs => by
    simp only [Ty.beq]
    exact tupleTypeEltBeqList_refl fs
  | .fn i r => by
    simp only [Ty.beq, Bool.and_eq_true]
    exact ⟨tyBeq_refl i, tyBeq_refl r⟩

/-- Reflexivity of tuple-type element equality. -/
theorem tupleTypeEltBeq_refl : ∀ f : TupleTypeElt, TupleTypeElt.beq f f = true
  | .mk n t d => by
    simp only [TupleTypeElt.beq, Bool.and_eq_true, beq_self_eq_true,
      and_true, true_and]
    exact tyBeq_refl t

/-- Reflexivity of tuple-type element list equality. -/
theorem tupleTypeEltBeqList_refl :
    ∀ fs : List TupleTypeElt, TupleTypeElt.beqList fs fs = true
  | [] => by simp [TupleTypeElt.beqList]
  | f :: fs => by
    simp only [TupleTypeElt.beqList, Bool.and_eq_true]
    exact ⟨tupleTypeEltBeq_refl f, tupleTypeEltBeqList_refl fs⟩

end

/-- A non-grouping expression never unwraps through the grouping-paren
path of `getConversionRank`. -/
theorem groupingSub_eq_none :
    ∀ E : Expr, E.isGroupingParen = false → groupingSub E = none := by
  intro E h
  cases E
  all_goals try rfl
  next subExprs g t =>
    simp only [Expr.isGroupingParen] at h
    subst h
    cases subExprs with
    | nil => rfl
    | cons hd rest =>
      cases hd with
      | none => rfl
      | some e0 => rfl

/-- C6: for every expression `e` whose type is canonically equal to the
destination type — in particular for `rank(e, typeOf(e))` — the conversion
rank is `Identity` (`Expr.cpp` lines 249-251). -/
theorem claim6_canonical_eq_gives_identity :
    (∀ (E : Expr) (DestTy : Ty),
        Ty.beq (getCanonicalType E.ty) (getCanonicalType DestTy) = true →
        getConversionRank E DestTy = .identity) ∧
    (∀ E : Expr, getConversionRank E E.ty = .identity) := by
  have h1 : ∀ (E : Expr) (DestTy : Ty),
      Ty.beq (getCanonicalType E.ty) (getCanonicalType DestTy) = true →
      getConversionRank E DestTy = .identity := by
    intro E DestTy h
    cases DestTy with
    | tuple ttFields =>
      rw [getConversionRank.eq_1]
      simp [h]
    | fn a r =>
      rw [getConversionRank.eq_2]
      simp [h]
    | base s =>
      rw [getConversionRank.eq_3 E (Ty.base s) (fun _ heq => nomatch heq)
        (fun _ _ heq => nomatch heq)]
      simp [h]
    | dependent =>
      rw [getConversionRank.eq_3 E Ty.dependent (fun _ heq => nomatch heq)
        (fun _ _ heq => nomatch heq)]
      simp [h]
  exact ⟨h1, fun E => h1 E E.ty (tyBeq_refl _)⟩

/-- Witness for C6 at the declaration reference `v : Int` against `Int`. -/
theorem claim6_witness :
    Ty.beq (getCanonicalType (Expr.declRef "v" exIntTy).ty)
        (getCanonicalType exIntTy) = true ∧
    getConversionRank (.declRef "v" exIntTy) exIntTy = .identity := by
  have hb : Ty.beq (getCanonicalType (Expr.declRef "v" exIntTy).ty)
      (getCanonicalType exIntTy) = true := by
    simp [Expr.ty, getCanonicalType, exIntTy, Ty.beq]
  exact ⟨hb, claim6_canonical_eq_gives_identity.1 _ _ hb⟩

/-- C7: when the destination is a function type with a different canonical
type (and the tuple cases, including the grouping-paren unwrap, do not
apply), the rank is `Invalid` exactly when ranking against the function's
result type is `Invalid`, and `AutoClosure` otherwise
(`Expr.cpp` lines 278-286). -/
theorem claim7_function_dest_autoclosure :
    ∀ (E : Expr) (fnInput fnResult : Ty),
      E.isGroupingParen = false →
      Ty.beq (getCanonicalType E.ty)
        (getCanonicalType (.fn fnInput fnResult)) = false →
      getConversionRank E (.fn fnInput fnResult) =
        (if getConversionRank E fnResult = .invalid then .invalid
         else .autoClosure) := by
  intro E fi fr hg hne
  rw [getConversionRank.eq_2]
  simp only [hne, Bool.false_eq_true, if_false, beq_iff_eq]
  split
  · next e0 hG => simp [groupingSub_eq_none E hg] at hG
  · rfl

/-- Witness for C7: an `Int` source against the zero-argument function
type producing `Int` ranks `AutoClosure`. -/
theorem claim7_witness :
    ((exLit "5").isGroupingParen = false ∧
     Ty.beq (getCanonicalType (exLit "5").ty) (getCanonicalType exFnTy)
       = false) ∧
    getConversionRank (exLit "5") exFnTy = .autoClosure := by
  have hg : (exLit "5").isGroupingParen = false := by rfl
  have hne : Ty.beq (getCanonicalType (exLit "5").ty)
      (getCanonicalType exFnTy) = false := by
    simp [exLit, exIntTy, exFnTy, Expr.ty, getCanonicalType, Ty.beq]
  refine ⟨⟨hg, hne⟩, ?_⟩
  rw [show exFnTy = Ty.fn (.tuple []) exIntTy from rfl]
  rw [claim7_function_dest_autoclosure (exLit "5") (.tuple []) exIntTy hg
    (by simpa [exFnTy] using hne)]
  have hid : getConversionRank (exLit "5") exIntTy = .identity :=
    claim6_canonical_eq_gives_identity.2 (exLit "5")
  simp [hid]

/-- An abort while processing element `j` of a child list, after the
first `j` elements succeeded, makes the whole list processing abort with
exactly the aborting state: the walker loops of `Expr.cpp` lines 324-410
stop at the first null result and touch nothing after it. -/
theorem processExprList_abort {σ : Type}
    (Fn : Expr → WalkOrder → σ → Option Expr × σ) :
    ∀ (cs : List Expr) (j : Nat) (s : σ) (pre : List Expr) (sj s' : σ)
      (c : Expr),
      processExprList Fn (cs.take j) s = (some pre, sj) →
      cs.get? j = some c →
      processNode Fn c sj = (none, s') →
      processExprList Fn cs s = (none, s') := by
  intro cs
  induction cs with
  | nil =>
    intro j s pre sj s' c _ hj _
    simp at hj
  | cons c0 rest ih =>
    intro j s pre sj s' c hpre hj habort
    cases j with
    | zero =>
      simp only [List.take_zero, processExprList, Prod.mk.injEq,
        Option.some.injEq] at hpre
      obtain ⟨-, hs⟩ := hpre
      subst hs
      rw [List.get?_cons_zero] at hj
      injection hj with hc
      subst hc
      simp only [processExprList, habort]
    | succ j' =>
      rw [List.take_succ_cons] at hpre
      rcases hp : processNode Fn c0 s with ⟨r0, s1⟩
      cases r0 with
      | none =>
        simp only [processExprList, hp] at hpre
        exact absurd hpre (by simp)
      | some e2 =>
        rcases hq : processExprList Fn (rest.take j') s1 with ⟨rq, s2⟩
        cases rq with
        | none =>
          simp only [processExprList, hp, hq] at hpre
          exact absurd hpre (by simp)
        | some rest2 =>
          simp only [processExprList, hp, hq, Prod.mk.injEq,
            Option.some.injEq] at hpre
          obtain ⟨-, hs⟩ := hpre
          subst hs
          rw [List.get?_cons_succ] at hj
          have hrest := ih j' s1 rest2 s2 s' c hq hj habort
          simp only [processExprList, hp, hrest]

/-- An abort across the visited expressions of a tuple slot list is an
abort of the slot-list processing itself with the same state: null slots
contribute nothing (`VisitTupleExpr`, `Expr.cpp` lines 324-333). -/
theorem processOptExprList_abort_of_children {σ : Type}
    (Fn : Expr → WalkOrder → σ → Option Expr × σ) :
    ∀ (slots : List (Option Expr)) (s s' : σ),
      processExprList Fn (optChildSlots slots) s = (none, s') →
      processOptExprList Fn slots s = (none, s') := by
  intro slots
  induction slots with
  | nil =>
    intro s s' h
    simp only [optChildSlots, processExprList] at h
    exact absurd h (by simp)
  | cons hd rest ih =>
    intro s s' h
    cases hd with
    | none =>
      simp only [optChildSlots] at h
      have hres := ih s s' h
      simp only [processOptExprList, hres]
    | some e =>
      simp only [optChildSlots] at h
      rcases hp : processNode Fn e s with ⟨r0, s1⟩
      cases r0 with
      | none =>
        simp only [processExprList, hp] at h
        have hs : s1 = s' := by simpa using h
        subst hs
        simp only [processOptExprList, hp]
      | some e2 =>
        simp only [processExprList, hp] at h
        rcases hq : processExprList Fn (optChildSlots rest) s1 with ⟨rq, s2⟩
        cases rq with
        | none =>
          rw [hq] at h
          have hs : s2 = s' := by simpa using h
          have hres := ih s1 s2 hq
          rw [hs] at hres
          simp only [processOptExprList, hp, hres]
        | some rest2 =>
          rw [hq] at h
          exact absurd h (by simp)

/-- An abort across the visited expressions of a brace element list is an
abort of the brace-list processing itself with the same state: non-
expression items without an initializer contribute nothing
(`VisitBraceExpr`, `Expr.cpp` lines 370-390). -/
theorem processBraceList_abort_of_children {σ : Type}
    (Fn : Expr → WalkOrder → σ → Option Expr × σ) :
    ∀ (elts : List BraceElt) (s s' : σ),
      processExprList Fn (braceChildSlots elts) s = (none, s') →
      processBraceList Fn elts s = (none, s') := by
  intro elts
  induction elts with
  | nil =>
    intro s s' h
    simp only [braceChildSlots, processExprList] at h
    exact absurd h (by simp)
  | cons hd rest ih =>
    intro s s' h
    cases hd with
    | expr e =>
      simp only [braceChildSlots] at h
      rcases hp : processNode Fn e s with ⟨r0, s1⟩
      cases r0 with
      | none =>
        simp only [processExprList, hp] at h
        have hs : s1 = s' := by simpa using h
        subst hs
        simp only [processBraceList, hp]
      | some e2 =>
        simp only [processExprList, hp] at h
        rcases hq : processExprList Fn (braceChildSlots rest) s1 with ⟨rq, s2⟩
        cases rq with
        | none =>
          rw [hq] at h
          have hs : s2 = s' := by simpa using h
          have hres := ih s1 s2 hq
          rw [hs] at hres
          simp only [processBraceList, hp, hres]
        | some rest2 =>
          rw [hq] at h
          exact absurd h (by simp)
    | valueDecl n init0 =>
      cases init0 with
      | none =>
        simp only [braceChildSlots] at h
        have hres := ih s s' h
        simp only [processBraceList, hres]
      | some i0 =>
        simp only [braceChildSlots] at h
        rcases hp : processNode Fn i0 s with ⟨r0, s1⟩
        cases r0 with
        | none =>
          simp only [processExprList, hp] at h
          have hs : s1 = s' := by simpa using h
          subst hs
          simp only [processBraceList, hp]
        | some e2 =>
          simp only [processExprList, hp] at h
          rcases hq : processExprList Fn (braceChildSlots rest) s1 with
            ⟨rq, s2⟩
          cases rq with
          | none =>
            rw [hq] at h
            have hs : s2 = s' := by simpa using h
            have hres := ih s1 s2 hq
            rw [hs] at hres
            simp only [processBraceList, hp, hres]
          | some rest2 =>
            rw [hq] at h
            exact absurd h (by simp)
    | otherDecl n =>
      simp only [braceChildSlots] at h
      have hres := ih s s' h
      simp only [processBraceList, hres]

/-- An abort across a node's structural children, in the walker's
traversal order, is an abort of the node's child visit itself with the
same state: every `Visit*` method (`Expr.cpp` lines 315-410) threads the
children exactly as `childSlots` lists them and stops at the first null
result. -/
theorem visitExpr_abort_of_children {σ : Type}
    (Fn : Expr → WalkOrder → σ → Option Expr × σ) (E : Expr) (s s' : σ)
    (h : processExprList Fn (childSlots E) s = (none, s')) :
    visitExpr Fn E s = (none, s') := by
  cases E with
  | integerLiteral v t =>
    simp only [childSlots, processExprList] at h
    exact absurd h (by simp)
  | declRef n t =>
    simp only [childSlots, processExprList] at h
    exact absurd h (by simp)
  | overloadSetRef n t =>
    simp only [childSlots, processExprList] at h
    exact absurd h (by simp)
  | unresolvedDeclRef n t =>
    simp only [childSlots, processExprList] at h
    exact absurd h (by simp)
  | unresolvedMember n t =>
    simp only [childSlots, processExprList] at h
    exact absurd h (by simp)
  | unresolvedScopedIdentifier b n t =>
    simp only [childSlots, processExprList] at h
    exact absurd h (by simp)
  | tuple subExprs g t =>
    simp only [childSlots] at h
    have hres := processOptExprList_abort_of_children Fn subExprs s s' h
    simp only [visitExpr, hres]
  | unresolvedDot sub n t =>
    cases sub with
    | none =>
      simp only [childSlots, processExprList] at h
      exact absurd h (by simp)
    | some sub0 =>
      simp only [childSlots] at h
      rcases hp : processNode Fn sub0 s with ⟨r0, s1⟩
      cases r0 with
      | none =>
        simp only [processExprList, hp] at h
        have hs : s1 = s' := by simpa using h
        subst hs
        simp only [visitExpr, hp]
      | some e2 =>
        simp only [processExprList, hp] at h
        exact absurd h (by simp)
  | tupleElement sub f t =>
    simp only [childSlots] at h
    rcases hp : processNode Fn sub s with ⟨r0, s1⟩
    cases r0 with
    | none =>
      simp only [processExprList, hp] at h
      have hs : s1 = s' := by simpa using h
      subst hs
      simp only [visitExpr, hp]
    | some e2 =>
      simp only [processExprList, hp] at h
      exact absurd h (by simp)
  | apply f a t =>
    simp only [childSlots] at h
    rcases hp : processNode Fn f s with ⟨r0, s1⟩
    cases r0 with
    | none =>
      simp only [processExprList, hp] at h
      have hs : s1 = s' := by simpa using h
      subst hs
      simp only [visitExpr, hp]
    | some f2 =>
      simp only [processExprList, hp] at h
      rcases hq : processNode Fn a s1 with ⟨r1, s2⟩
      cases r1 with
      | none =>
        simp only [hq] at h
        have hs : s2 = s' := by simpa using h
        subst hs
        simp only [visitExpr, hp, hq]
      | some a2 =>
        simp only [processExprList, hq] at h
        exact absurd h (by simp)
  | seq es t =>
    simp only [childSlots] at h
    simp only [visitExpr, h]
  | brace es t =>
    simp only [childSlots] at h
    have hres := processBraceList_abort_of_children Fn es s s' h
    simp only [visitExpr, hres]
  | closure inp t =>
    simp only [childSlots] at h
    rcases hp : processNode Fn inp s with ⟨r0, s1⟩
    cases r0 with
    | none =>
      simp only [processExprList, hp] at h
      have hs : s1 = s' := by simpa using h
      subst hs
      simp only [visitExpr, hp]
    | some e2 =>
      simp only [processExprList, hp] at h
      exact absurd h (by simp)
  | anonClosureArg i t =>
    simp only [childSlots, processExprList] at h
    exact absurd h (by simp)
  | binary fe l r t =>
    simp only [childSlots] at h
    rcases hp : processNode Fn l s with ⟨r0, s1⟩
    cases r0 with
    | none =>
      simp only [processExprList, hp] at h
      have hs : s1 = s' := by simpa using h
      subst hs
      simp only [visitExpr, hp]
    | some l2 =>
      simp only [processExprList, hp] at h
      rcases hq : processNode Fn r s1 with ⟨r1, s2⟩
      cases r1 with
      | none =>
        simp only [hq] at h
        have hs : s2 = s' := by simpa using h
        subst hs
        simp only [visitExpr, hp, hq]
      | some r2 =>
        simp only [processExprList, hq] at h
        exact absurd h (by simp)

/-- C8: during a walk, an abort raised while processing any child of any
node stops the walk immediately.  For every node `E`, every visitor `Fn`
over every state type, and every child position `j`: if the pre-order
visit accepts `E`, processing the first `j` children (in the walker's
traversal order `childSlots E`, which covers tuple slots, projection
sub-expressions, callee/argument, sequence elements, brace items with
initializers, closure input and binary operands) succeeds reaching state
`sj`, and processing child `j` aborts in state `s'`, then the walk of `E`
returns no value with state exactly `s'` — the siblings after child `j`
are never visited and no post-order visit of `E` happens, since the
final state is the aborting child's state untouched, and the abort
propagates to the caller (`Expr.cpp` lines 315-421).  In particular for
an application node `f(x)` with the abort at the callee `f`, the
argument `x` is never visited. -/
theorem claim8_child_abort_stops_walk :
    ∀ (σ : Type) (Fn : Expr → WalkOrder → σ → Option Expr × σ)
      (E e0 : Expr) (s s1 : σ) (j : Nat) (pre : List Expr) (sj s' : σ)
      (c : Expr),
      Fn E .preOrder s = (some e0, s1) →
      processExprList Fn ((childSlots E).take j) s1 = (some pre, sj) →
      (childSlots E).get? j = some c →
      processNode Fn c sj = (none, s') →
      processNode Fn E s = (none, s') := by
  intro σ Fn E e0 s s1 j pre sj s' c h1 hpre hj habort
  have hl : processExprList Fn (childSlots E) s1 = (none, s') :=
    processExprList_abort Fn (childSlots E) j s1 pre sj s' c hpre hj habort
  have hv : visitExpr Fn E s1 = (none, s') :=
    visitExpr_abort_of_children Fn E s1 s' hl
  conv_lhs => rw [processNode.eq_def]
  rw [h1]
  simp only [hv]

/-- Witness for C8: a logging visitor aborting at the post-order visit of
the callee `f` (child position 0 of the application node) makes the walk
of `f(x)` return no value, with a trace that never mentions the argument
`x` and no post-order entry for the application. -/
theorem claim8_witness :
    processNode exAbortVisitor exApplyNode [] =
      (none, [("apply", WalkOrder.preOrder), ("f", WalkOrder.preOrder),
              ("f", WalkOrder.postOrder)]) := by
  have h1 : exAbortVisitor exApplyNode .preOrder [] =
      (some exApplyNode, [("apply", WalkOrder.preOrder)]) := by rfl
  have hpre : processExprList exAbortVisitor
      ((childSlots exApplyNode).take 0) [("apply", WalkOrder.preOrder)] =
      (some [], [("apply", WalkOrder.preOrder)]) := by
    simp only [List.take_zero, processExprList]
  have hj : (childSlots exApplyNode).get? 0 =
      some (.declRef "f" exIntTy) := by rfl
  have h2 : processNode exAbortVisitor (.declRef "f" exIntTy)
      [("apply", WalkOrder.preOrder)] =
      (none, [("apply", WalkOrder.preOrder), ("f", WalkOrder.preOrder),
              ("f", WalkOrder.postOrder)]) := by
    conv_lhs => rw [processNode.eq_def]
    simp [visitExpr, exAbortVisitor, exTag]
  exact claim8_child_abort_stops_walk _ exAbortVisitor exApplyNode
    exApplyNode [] [("apply", WalkOrder.preOrder)] 0 []
    [("apply", WalkOrder.preOrder)] _ (.declRef "f" exIntTy)
    h1 hpre hj h2

/-- C9: a pre-order reject returns the original node unchanged — no child
visit, no post-order visit, final state exactly the reject state — and the
walk continues normally across siblings: in a three-element sequence with
the middle element rejected, the outer walk still completes, the other two
elements are processed normally, and the result is the elsewhere-rewritten
tree with the rejected node kept verbatim (`Expr.cpp` lines 412-421 and
362-369). -/
theorem claim9_preorder_reject_keeps_node :
    (∀ (σ : Type) (Fn : Expr → WalkOrder → σ → Option Expr × σ)
       (E : Expr) (s s1 : σ),
       Fn E .preOrder s = (none, s1) →
       processNode Fn E s = (some E, s1)) ∧
    (∀ (σ : Type) (Fn : Expr → WalkOrder → σ → Option Expr × σ)
       (a b c e0 a2 c2 : Expr) (t : Ty) (s s1 s2 s3 s4 : σ)
       (res : Option Expr × σ),
       Fn (.seq [a, b, c] t) .preOrder s = (some e0, s1) →
       processNode Fn a s1 = (some a2, s2) →
       Fn b .preOrder s2 = (none, s3) →
       processNode Fn c s3 = (some c2, s4) →
       Fn (.seq [a2, b, c2] t) .postOrder s4 = res →
       processNode Fn (.seq [a, b, c] t) s = res) := by
  have hreject : ∀ (σ : Type) (Fn : Expr → WalkOrder → σ → Option Expr × σ)
      (E : Expr) (s s1 : σ),
      Fn E .preOrder s = (none, s1) →
      processNode Fn E s = (some E, s1) := by
    intro σ Fn E s s1 h
    conv_lhs => rw [processNode.eq_def]
    rw [h]
  refine ⟨hreject, ?_⟩
  intro σ Fn a b c e0 a2 c2 t s s1 s2 s3 s4 res h1 h2 h3 h4 h5
  have hb : processNode Fn b s2 = (some b, s3) := hreject σ Fn b s2 s3 h3
  have hv : visitExpr Fn (.seq [a, b, c] t) s1 =
      (some (.seq [a2, b, c2] t), s4) := by
    simp only [visitExpr, processExprList, h2, hb, h4]
  conv_lhs => rw [processNode.eq_def]
  rw [h1]
  simp only [hv, h5]

/-- Witness for C9: in the sequence `(a; b; c)` of declaration references,
rejecting `b` at pre-order still completes the walk; the trace shows `b`'s
single pre-order visit between the full visits of `a` and `c`, and the
original sequence is returned. -/
theorem claim9_witness :
    processNode exRejectVisitor
      (.seq [.declRef "a" exIntTy, .declRef "b" exIntTy,
             .declRef "c" exIntTy] exIntTy) [] =
      (some (.seq [.declRef "a" exIntTy, .declRef "b" exIntTy,
             .declRef "c" exIntTy] exIntTy),
       [("seq", WalkOrder.preOrder), ("a", WalkOrder.preOrder),
        ("a", WalkOrder.postOrder), ("b", WalkOrder.preOrder),
        ("c", WalkOrder.preOrder), ("c", WalkOrder.postOrder),
        ("seq", WalkOrder.postOrder)]) := by
  apply claim9_preorder_reject_keeps_node.2 _ exRejectVisitor
    (.declRef "a" exIntTy) (.declRef "b" exIntTy) (.declRef "c" exIntTy)
    _ (.declRef "a" exIntTy) (.declRef "c" exIntTy) exIntTy
    [] [("seq", WalkOrder.preOrder)]
    [("seq", WalkOrder.preOrder), ("a", WalkOrder.preOrder),
     ("a", WalkOrder.postOrder)]
    [("seq", WalkOrder.preOrder), ("a", WalkOrder.preOrder),
     ("a", WalkOrder.postOrder), ("b", WalkOrder.preOrder)]
    [("seq", WalkOrder.preOrder), ("a", WalkOrder.preOrder),
     ("a", WalkOrder.postOrder), ("b", WalkOrder.preOrder),
     ("c", WalkOrder.preOrder), ("c", WalkOrder.postOrder)]
  · rfl
  · conv_lhs => rw [processNode.eq_def]
    simp [visitExpr, exRejectVisitor, exTag]
  · rfl
  · conv_lhs => rw [processNode.eq_def]
    simp [visitExpr, exRejectVisitor, exTag]
  · rfl

/-- C10: a non-reject node returned by the pre-order visitor is never
installed: after testing the pre-order result against null, the walker
descends into and returns results computed from the original node, the
returned replacement being discarded — the walk's result does not mention
`E2` at all (`Expr.cpp` lines 412-421). -/
theorem claim10_preorder_replacement_ignored :
    ∀ (σ : Type) (Fn : Expr → WalkOrder → σ → Option Expr × σ)
      (E E2 : Expr) (s s1 : σ),
      Fn E .preOrder s = (some E2, s1) →
      processNode Fn E s =
        (match visitExpr Fn E s1 with
         | (none, s2) => (none, s2)
         | (some e3, s2) => Fn e3 .postOrder s2) := by
  intro σ Fn E E2 s s1 h
  conv_lhs => rw [processNode.eq_def]
  rw [h]

/-- Witness for C10: a visitor whose pre-order visit returns the fresh
literal `999` does not affect the result: the original literal `1` is
returned. -/
theorem claim10_witness :
    processNode exReplaceVisitor (exLit "1") 0 = (some (exLit "1"), 2) := by
  have h := claim10_preorder_replacement_ignored Nat exReplaceVisitor
    (exLit "1") (.integerLiteral "999" (.base "Int")) 0 1 (by rfl)
  rw [h]
  simp [visitExpr, exReplaceVisitor, exLit]

/-- Setting past the end of a list is a no-op. -/
theorem set_of_length_le {α : Type} :
    ∀ (l : List α) (i : Nat) (v : α), l.length ≤ i → l.set i v = l := by
  intro l
  induction l with
  | nil => intro i v _; rfl
  | cons a t ih =>
    intro i v h
    cases i with
    | zero => simp at h
    | succ i' =>
      show a :: t.set i' v = a :: t
      rw [ih i' v (by simp at h; omega)]

/-- Setting a `true` never clears an already-`true` slot. -/
theorem getD_set_true_mono (l : List Bool) (m j : Nat)
    (h : l.getD j false = true) : (l.set m true).getD j false = true := by
  by_cases hmj : m = j
  · subst hmj
    by_cases hlt : m < l.length
    · rw [getD_set_self l m true false hlt]
    · rw [set_of_length_le l m true (by omega)]
      exact h
  · rw [getD_set_ne l m j true false hmj]
    exact h

/-- Characterization of the pass-1 inner scan: it returns the first
position carrying the name within the window, `-1` when there is none. -/
theorem findNamedInputFrom_spec (identList : List Identifier)
    (name : Identifier) :
    ∀ (rem j0 : Nat),
      (∃ k, findNamedInputFrom identList name rem j0 = Int.ofNat k ∧
        j0 ≤ k ∧ k < j0 + rem ∧ identList.getD k "" = name ∧
        ∀ j', j0 ≤ j' → j' < k → identList.getD j' "" ≠ name) ∨
      (findNamedInputFrom identList name rem j0 = -1 ∧
        ∀ k, j0 ≤ k → k < j0 + rem → identList.getD k "" ≠ name) := by
  intro rem
  induction rem with
  | zero =>
    intro j0
    right
    exact ⟨rfl, fun k h1 h2 => by omega⟩
  | succ rem' ih =>
    intro j0
    by_cases h : identList.getD j0 "" = name
    · left
      refine ⟨j0, ?_, Nat.le_refl _, by omega, h, fun j' h1 h2 => by omega⟩
      simp only [findNamedInputFrom]
      rw [if_pos (beq_iff_eq.mpr h)]
    · have hstep : findNamedInputFrom identList name (rem' + 1) j0 =
          findNamedInputFrom identList name rem' (j0 + 1) := by
        simp only [findNamedInputFrom]
        rw [if_neg (fun hc => h (beq_iff_eq.mp hc))]
      rcases ih (j0 + 1) with ⟨k, heq, hk1, hk2, hk3, hk4⟩ | ⟨heq, hall⟩
      · left
        refine ⟨k, hstep.trans heq, by omega, by omega, hk3, ?_⟩
        intro j' h1 h2
        rcases Nat.eq_or_lt_of_le h1 with heqj | hgt
        · rw [← heqj]
          exact h
        · exact hk4 j' (by omega) h2
      · right
        refine ⟨hstep.trans heq, ?_⟩
        intro k h1 h2
        rcases Nat.eq_or_lt_of_le h1 with heqj | hgt
        · rw [← heqj]
          exact h
        · exact hall k (by omega) (by omega)

/-- Pass 1 never touches destination slots below the loop index. -/
theorem pass1From_getD_lt (identList : List Identifier) (n : Nat)
    (destFields : List TupleTypeElt) :
    ∀ (rem i : Nat) (ds : List Int) (used : List Bool) (k : Nat) (d : Int),
      k < i →
      (pass1From identList n destFields rem i ds used).1.getD k d =
        ds.getD k d := by
  intro rem
  induction rem with
  | zero => intro i ds used k d _; rfl
  | succ rem' ih =>
    intro i ds used k d h
    cases hg : destFields.get? i with
    | none => simp only [pass1From, hg]
    | some destElt =>
      simp only [pass1From, hg]
      split
      · exact ih (i + 1) ds used k d (by omega)
      · split
        · exact ih (i + 1) ds used k d (by omega)
        · rw [ih (i + 1) _ _ k d (by omega)]
          exact getD_set_ne _ i k _ d (by omega)

/-- Pass 1 leaves the used-elements array lengths unchanged and only ever
turns entries to `true`. -/
theorem pass1From_used_mono (identList : List Identifier) (n : Nat)
    (destFields : List TupleTypeElt) :
    ∀ (rem i : Nat) (ds : List Int) (used : List Bool) (j : Nat),
      used.getD j false = true →
      (pass1From identList n destFields rem i ds used).2.getD j false =
        true := by
  intro rem
  induction rem with
  | zero => intro i ds used j h; exact h
  | succ rem' ih =>
    intro i ds used j h
    cases hg : destFields.get? i with
    | none => simp only [pass1From, hg]; exact h
    | some destElt =>
      simp only [pass1From, hg]
      split
      · exact ih (i + 1) ds used j h
      · split
        · exact ih (i + 1) ds used j h
        · exact ih (i + 1) _ _ j (getD_set_true_mono used _ j h)

/-- Pointwise characterization of the pass-1 bindings: a destination field
is bound to the scan result for its own name, independently of every other
field and of the used-elements bookkeeping. -/
theorem pass1From_getD_bound (identList : List Identifier) (n : Nat)
    (destFields : List TupleTypeElt) :
    ∀ (rem i : Nat) (ds : List Int) (used : List Bool) (k : Nat) (d : Int)
      (destElt : TupleTypeElt),
      i ≤ k → k < i + rem → destFields.get? k = some destElt →
      destFields.length ≤ ds.length →
      (pass1From identList n destFields rem i ds used).1.getD k d =
        (if destElt.name.isEmpty then ds.getD k d
         else if findNamedInputFrom identList destElt.name n 0 == -1 then
           ds.getD k d
         else findNamedInputFrom identList destElt.name n 0) := by
  intro rem
  induction rem with
  | zero => intro i ds used k d destElt h1 h2 _ _; omega
  | succ rem' ih =>
    intro i ds used k d destElt h1 h2 hk hlen
    have hklen : k < destFields.length := get?_some_lt _ _ _ hk
    cases hg : destFields.get? i with
    | none =>
      exfalso
      have := List.get?_eq_none.mp hg
      omega
    | some ei =>
      rcases Nat.eq_or_lt_of_le h1 with heqik | hlt
      · subst heqik
        rw [hg] at hk
        cases hk
        simp only [pass1From, hg]
        split
        · rw [pass1From_getD_lt identList n destFields rem' (i + 1) ds used
            i d (by omega)]
        · split
          · rw [pass1From_getD_lt identList n destFields rem' (i + 1) ds used
              i d (by omega)]
          · rw [pass1From_getD_lt identList n destFields rem' (i + 1) _ _
              i d (by omega)]
            exact getD_set_self ds i _ d (by omega)
      · have hstep : ∀ (ds' : List Int) (used' : List Bool),
            destFields.length ≤ ds'.length →
            ds'.getD k d = ds.getD k d →
            (pass1From identList n destFields rem' (i + 1) ds'
                used').1.getD k d =
              (if destElt.name.isEmpty then ds.getD k d
               else if findNamedInputFrom identList destElt.name n 0 == -1
                 then ds.getD k d
               else findNamedInputFrom identList destElt.name n 0) := by
          intro ds' used' hlen' hsame
          rw [ih (i + 1) ds' used' k d destElt (by omega) (by omega) hk
            hlen']
          rw [hsame]
        simp only [pass1From, hg]
        split
        · exact hstep ds used hlen rfl
        · split
          · exact hstep ds used hlen rfl
          · exact hstep
              (ds.set i (findNamedInputFrom identList ei.name n 0))
              (used.set (findNamedInputFrom identList ei.name n 0).toNat true)
              (by rw [List.length_set]; exact hlen)
              (getD_set_ne ds i k _ d (by omega))

/-- A destination field whose name scan finds position `j` makes pass 1
mark input element `j` used. -/
theorem pass1From_used_of_bound (identList : List Identifier) (n : Nat)
    (destFields : List TupleTypeElt) :
    ∀ (rem i : Nat) (ds : List Int) (used : List Bool) (k : Nat)
      (destElt : TupleTypeElt) (j : Nat),
      i ≤ k → k < i + rem → destFields.get? k = some destElt →
      destElt.name.isEmpty = false →
      findNamedInputFrom identList destElt.name n 0 = Int.ofNat j →
      j < used.length →
      (pass1From identList n destFields rem i ds used).2.getD j false =
        true := by
  intro rem
  induction rem with
  | zero => intro i ds used k destElt j h1 h2 _ _ _ _; omega
  | succ rem' ih =>
    intro i ds used k destElt j h1 h2 hk hname hfind hjlen
    have hklen : k < destFields.length := get?_some_lt _ _ _ hk
    cases hg : destFields.get? i with
    | none =>
      exfalso
      have := List.get?_eq_none.mp hg
      omega
    | some ei =>
      rcases Nat.eq_or_lt_of_le h1 with heqik | hlt
      · subst heqik
        rw [hg] at hk
        cases hk
        simp only [pass1From, hg]
        split
        · next hn => rw [hname] at hn; exact absurd hn (by simp)
        · split
          · next hv =>
            rw [hfind] at hv
            exact absurd hv (by simp)
          · rw [hfind]
            apply pass1From_used_mono
            have : (Int.ofNat j).toNat = j := rfl
            rw [this]
            exact getD_set_self used j true false hjlen
      · simp only [pass1From, hg]
        split
        · exact ih (i + 1) ds used k destElt j (by omega) (by omega) hk
            hname hfind hjlen
        · split
          · exact ih (i + 1) ds used k destElt j (by omega) (by omega) hk
              hname hfind hjlen
          · exact ih (i + 1)
              (ds.set i (findNamedInputFrom identList ei.name n 0))
              (used.set (findNamedInputFrom identList ei.name n 0).toNat true)
              k destElt j (by omega) (by omega) hk hname hfind
              (by rw [List.length_set]; exact hjlen)

/-- Counterexample for C2: with source element names `["a", "a"]` and two
destination fields both named `a`, pass 1 binds both fields to source
element 0 — the second field is bound to an element that is already used,
and source element 1, though it carries the wanted name, stays unused, so
the whole conversion is `Invalid`. -/
theorem claim2_counterexample :
    pass1From ["a", "a"] 2 exDupDest 2 0 [-1, -1] [false, false] =
      ([0, 0], [true, false]) ∧
    getConversionRank exDupRef (.tuple exDupDest) = .invalid := by
  constructor
  · rfl
  · simp [getConversionRank, getTupleToTupleTypeConversionRank,
      reconcileSources, identListOf, pass1From, pass2From, scanForUnnamed,
      findNamedInputFrom, tupleLiteralRankLoop, structuralLoop,
      tupleFieldsOfTy, exDupRef, exDupDest, exIntTy, Expr.ty, Ty.beq,
      TupleTypeElt.beqList, TupleTypeElt.beq, getCanonicalType, groupingSub,
      isTupleExpr, numSubExprsOf, TupleTypeElt.name, TupleTypeElt.hasInit,
      getFieldForScalarInit, List.getD, List.get?, Int.toNat, crMax,
      ConversionRank.toNat, List.replicate, List.all, List.set, List.filter,
      List.findIdx, List.findIdx.go, String.isEmpty]

/-- C2 (amended): in pass 1, a destination field with a non-empty name is
bound to the first source element with that exact name, whether or not
that element is already used (so two destination fields sharing a name are
bound to the same source element), and the element found is marked used;
a field whose name occurs nowhere is left unresolved for pass 2. -/
theorem claim2_pass1_first_match_amended :
    ∀ (identList : List Identifier) (n : Nat)
      (destFields : List TupleTypeElt) (ds1 : List Int) (used1 : List Bool)
      (i : Nat) (destElt : TupleTypeElt),
      pass1From identList n destFields destFields.length 0
        (List.replicate destFields.length (-1))
        (List.replicate n false) = (ds1, used1) →
      destFields.get? i = some destElt →
      destElt.name.isEmpty = false →
      ((∃ j, isFirstMatch identList n destElt.name j ∧
          ds1.getD i (-1) = Int.ofNat j ∧ used1.getD j false = true) ∨
       ((∀ j, j < n → identList.getD j "" ≠ destElt.name) ∧
          ds1.getD i (-1) = -1)) := by
  intro identList n destFields ds1 used1 i destElt hrun hk hname
  have hilen : i < destFields.length := get?_some_lt _ _ _ hk
  rcases findNamedInputFrom_spec identList destElt.name n 0 with
    ⟨j, hfind, _, hjn, hjname, hjfirst⟩ | ⟨hfind, hnone⟩
  · left
    refine ⟨j, ⟨by omega, hjname, fun j' hj' => hjfirst j' (by omega) hj'⟩,
      ?_, ?_⟩
    · have := pass1From_getD_bound identList n destFields destFields.length
        0 (List.replicate destFields.length (-1)) (List.replicate n false)
        i (-1) destElt (by omega) (by omega) hk (by simp)
      rw [hrun] at this
      rw [this, if_neg (by simp [hname]), hfind,
        if_neg (by simp)]
    · have := pass1From_used_of_bound identList n destFields
        destFields.length 0 (List.replicate destFields.length (-1))
        (List.replicate n false) i destElt j (by omega) (by omega) hk hname
        hfind (by simp; omega)
      rw [hrun] at this
      exact this
  · right
    refine ⟨fun j hj => hnone j (by omega) (by omega), ?_⟩
    have := pass1From_getD_bound identList n destFields destFields.length
      0 (List.replicate destFields.length (-1)) (List.replicate n false)
      i (-1) destElt (by omega) (by omega) hk (by simp)
    rw [hrun] at this
    rw [this, if_neg (by simp [hname]), hfind]
    simp [getD_replicate destFields.length i (-1) (-1) hilen]

/-- Witness for the amended C2 at the duplicate-name input: destination
field 1 (named `a`) is bound to source element 0, the first element named
`a`, even though field 0 already used it. -/
theorem claim2_amended_witness :
    (∃ j, isFirstMatch ["a", "a"] 2 (TupleTypeElt.mk "a" exIntTy true).name
        j ∧ ([0, 0] : List Int).getD 1 (-1) = Int.ofNat j ∧
        ([true, false] : List Bool).getD j false = true) ∨
    ((∀ j, j < 2 →
        (["a", "a"] : List Identifier).getD j "" ≠
          (TupleTypeElt.mk "a" exIntTy true).name) ∧
     ([0, 0] : List Int).getD 1 (-1) = -1) :=
  claim2_pass1_first_match_amended ["a", "a"] 2 exDupDest [0, 0]
    [true, false] 1 (TupleTypeElt.mk "a" exIntTy true) (by rfl) (by rfl)
    (by rfl)

/-- The pass-2 scan loop computes exactly the specification's "first
unused, unnamed source element at or after the cursor", with `n` standing
for exhaustion. -/
theorem scanForUnnamed_eq_spec (used : List Bool)
    (identList : List Identifier) (n : Nat) :
    ∀ (m next : Nat), m = n - next → next ≤ n →
      scanForUnnamed used identList n m next =
        (specFindUnnamed identList used n next).getD n := by
  intro m
  induction m with
  | zero =>
    intro next hm hle
    have hnn : next = n := by omega
    subst hnn
    simp [scanForUnnamed, specFindUnnamed]
  | succ m' ih =>
    intro next hm hle
    have hlt : next < n := by omega
    have hrange : List.range' next (n - next) =
        next :: List.range' (next + 1) m' := by
      have h1 : n - next = m' + 1 := by omega
      rw [h1]
      exact List.range'_succ next m' 1
    simp only [scanForUnnamed]
    rw [if_neg (by simp; omega)]
    cases hp : (!used.getD next false && (identList.getD next "").isEmpty)
      with
    | true =>
      rw [if_pos rfl]
      simp only [specFindUnnamed, hrange, List.find?_cons]
      rw [hp]
      exact rfl
    | false =>
      rw [if_neg (by simp)]
      rw [ih (next + 1) (by omega) (by omega)]
      have h2 : n - (next + 1) = m' := by omega
      simp only [specFindUnnamed, hrange, List.find?_cons, h2]
      rw [hp]

/-- A scan started at a used element skips straight past it. -/
theorem scanForUnnamed_skip (used : List Bool)
    (identList : List Identifier) (n : Nat) (next : Nat)
    (hlt : next < n) (hused : used.getD next false = true) :
    scanForUnnamed used identList n (n - next) next =
      scanForUnnamed used identList n (n - (next + 1)) (next + 1) := by
  have h1 : n - next = (n - (next + 1)) + 1 := by omega
  rw [h1]
  simp only [scanForUnnamed]
  rw [if_neg (by simp; omega)]
  rw [if_neg (by rw [hused]; simp)]

/-- Pass 2 behaves identically whether its cursor sits on a used element
or just past it. -/
theorem pass2From_skip_used (identList : List Identifier)
    (destFields : List TupleTypeElt) (n : Nat) :
    ∀ (rem i : Nat) (ds : List Int) (used : List Bool) (next : Nat),
      next < n → used.getD next false = true →
      pass2From identList destFields n rem i ds used next =
        pass2From identList destFields n rem i ds used (next + 1) := by
  intro rem
  induction rem with
  | zero => intro i ds used next _ _; rfl
  | succ rem' ih =>
    intro i ds used next hlt hused
    cases hg : destFields.get? i with
    | none => simp only [pass2From, hg]
    | some destElt =>
      simp only [pass2From, hg]
      split
      · exact ih (i + 1) ds used next hlt hused
      · rw [scanForUnnamed_skip used identList n next hlt hused]

/-- C3 core equivalence: the positional pass 2 of the reconciliation
(`Expr.cpp` lines 144-180) computes exactly the specification's pass 2:
left-to-right binding of still-unresolved fields to unused, unnamed source
elements through an advancing cursor, with "use default" on exhaustion for
defaulted fields and `Invalid` otherwise. -/
theorem pass2From_eq_spec (identList : List Identifier)
    (destFields : List TupleTypeElt) (n : Nat) :
    ∀ (rem i : Nat) (ds : List Int) (used : List Bool) (next : Nat),
      next ≤ n → used.length = n →
      pass2From identList destFields n rem i ds used next =
        specPass2From identList destFields n rem i ds used next := by
  intro rem
  induction rem with
  | zero => intro i ds used next _ _; rfl
  | succ rem' ih =>
    intro i ds used next hle hlen
    cases hg : destFields.get? i with
    | none => simp only [pass2From, specPass2From, hg]
    | some destElt =>
      simp only [pass2From, specPass2From, hg]
      split
      · exact ih (i + 1) ds used next hle hlen
      · rw [scanForUnnamed_eq_spec used identList n (n - next) next rfl hle]
        cases hfind : specFindUnnamed identList used n next with
        | some k0 =>
          have hmem := List.mem_of_find?_eq_some hfind
          have hk0 := List.mem_range'_1.mp hmem
          have hk0n : k0 < n := by omega
          simp only [Option.getD_some]
          rw [if_neg (by simp; omega)]
          rw [pass2From_skip_used identList destFields n rem' (i + 1)
            (ds.set i (Int.ofNat k0)) (used.set k0 true) k0 hk0n
            (getD_set_self used k0 true false (by omega))]
          exact ih (i + 1) (ds.set i (Int.ofNat k0)) (used.set k0 true)
            (k0 + 1) (by omega) (by rw [List.length_set]; exact hlen)
        | none =>
          simp only [Option.getD_none]
          rw [if_pos (by simp)]
          split
          · next hdef =>
            have hfalse : destElt.hasInit = false := by simpa using hdef
            rw [if_neg (by simp [hfalse])]
          · next hdef =>
            have htrue : destElt.hasInit = true := by simpa using hdef
            rw [if_pos htrue]
            exact ih (i + 1) (ds.set i (-2)) used n (Nat.le_refl n) hlen

/-- C3: pass 2 binds still-unresolved destination fields positionally,
left to right, to unused unnamed source elements via an advancing cursor,
binding to "use default" (`-2`) on exhaustion when a default exists and
failing the whole reconciliation otherwise; in particular destination
`(Int, Int, Int)` with source literal `(1, 2)` is `Invalid`. -/
theorem claim3_pass2_positional_matching :
    (∀ (identList : List Identifier) (destFields : List TupleTypeElt)
       (n rem i : Nat) (ds : List Int) (used : List Bool) (next : Nat),
       next ≤ n → used.length = n →
       pass2From identList destFields n rem i ds used next =
         specPass2From identList destFields n rem i ds used next) ∧
    getConversionRank exPairLit
      (.tuple [exUnnamedInt, exUnnamedInt, exUnnamedInt]) = .invalid := by
  constructor
  · intro identList destFields n rem i ds used next h1 h2
    exact pass2From_eq_spec identList destFields n rem i ds used next h1 h2
  · simp [getConversionRank, getTupleToTupleTypeConversionRank,
      reconcileSources, identListOf, pass1From, pass2From, scanForUnnamed,
      findNamedInputFrom, tupleLiteralRankLoop, structuralLoop,
      tupleFieldsOfTy, exPairLit, exLit, exUnnamedInt, exIntTy, Expr.ty,
      Ty.beq, TupleTypeElt.beqList, TupleTypeElt.beq, getCanonicalType,
      groupingSub, isTupleExpr, numSubExprsOf, TupleTypeElt.name,
      TupleTypeElt.hasInit, getFieldForScalarInit, List.getD, List.get?,
      Int.toNat, crMax, ConversionRank.toNat, List.replicate, List.all,
      List.set, List.filter, List.findIdx, List.findIdx.go, String.isEmpty]

/-- Witness for C3 applying the pass-2 equivalence at the arity-failure
input: three destination `Int` fields against two unnamed source
elements. -/
theorem claim3_witness :
    pass2From ["", ""] [exUnnamedInt, exUnnamedInt, exUnnamedInt] 2 3 0
      [-1, -1, -1] [false, false] 0 =
    specPass2From ["", ""] [exUnnamedInt, exUnnamedInt, exUnnamedInt] 2 3 0
      [-1, -1, -1] [false, false] 0 :=
  claim3_pass2_positional_matching.1 ["", ""]
    [exUnnamedInt, exUnnamedInt, exUnnamedInt] 2 3 0 [-1, -1, -1]
    [false, false] 0 (by omega) (by rfl)

/-- Pass 1 preserves the lengths of both bookkeeping arrays. -/
theorem pass1From_lengths (identList : List Identifier) (n : Nat)
    (destFields : List TupleTypeElt) :
    ∀ (rem i : Nat) (ds : List Int) (used : List Bool),
      (pass1From identList n destFields rem i ds used).1.length =
        ds.length ∧
      (pass1From identList n destFields rem i ds used).2.length =
        used.length := by
  intro rem
  induction rem with
  | zero => intro i ds used; exact ⟨rfl, rfl⟩
  | succ rem' ih =>
    intro i ds used
    cases hg : destFields.get? i with
    | none =>
      simp only [pass1From, hg]
      refine ⟨?_, ?_⟩ <;> trivial
    | some destElt =>
      simp only [pass1From, hg]
      split
      · exact ih (i + 1) ds used
      · split
        · exact ih (i + 1) ds used
        · have := ih (i + 1)
            (ds.set i (findNamedInputFrom identList destElt.name n 0))
            (used.set (findNamedInputFrom identList destElt.name n 0).toNat
              true)
          simpa [List.length_set] using this

/-- Every slot pass 1 writes holds a nonnegative source index; other slots
are left untouched. -/
theorem pass1From_values (identList : List Identifier) (n : Nat)
    (destFields : List TupleTypeElt) :
    ∀ (rem i : Nat) (ds : List Int) (used : List Bool) (k : Nat) (d : Int),
      (pass1From identList n destFields rem i ds used).1.getD k d =
        ds.getD k d ∨
      ∃ j : Nat,
        (pass1From identList n destFields rem i ds used).1.getD k d =
          Int.ofNat j := by
  intro rem
  induction rem with
  | zero => intro i ds used k d; left; rfl
  | succ rem' ih =>
    intro i ds used k d
    cases hg : destFields.get? i with
    | none =>
      left
      simp only [pass1From, hg]
    | some destElt =>
      simp only [pass1From, hg]
      split
      · exact ih (i + 1) ds used k d
      · split
        · exact ih (i + 1) ds used k d
        · next hv =>
          rcases ih (i + 1)
            (ds.set i (findNamedInputFrom identList destElt.name n 0))
            (used.set (findNamedInputFrom identList destElt.name n 0).toNat
              true) k d with heq | hofnat
          · rw [heq]
            by_cases hki : i = k
            · subst hki
              by_cases hilen : i < ds.length
              · rcases findNamedInputFrom_spec identList destElt.name n 0
                  with ⟨j, hfind, _, _, _, _⟩ | ⟨hfind, _⟩
                · right
                  exact ⟨j, by rw [getD_set_self ds i _ d hilen, hfind]⟩
                · exfalso
                  rw [hfind] at hv
                  exact hv rfl
              · left
                rw [set_of_length_le ds i _ (by omega)]
            · left
              exact getD_set_ne ds i k _ d hki
          · right
            exact hofnat

/-- A successful pass 2 preserves the lengths of both arrays. -/
theorem pass2From_lengths (identList : List Identifier)
    (destFields : List TupleTypeElt) (n : Nat) :
    ∀ (rem i : Nat) (ds : List Int) (used : List Bool) (next : Nat)
      (ds' : List Int) (used' : List Bool),
      pass2From identList destFields n rem i ds used next =
        some (ds', used') →
      ds'.length = ds.length ∧ used'.length = used.length := by
  intro rem
  induction rem with
  | zero =>
    intro i ds used next ds' used' h
    simp only [pass2From, Option.some.injEq, Prod.mk.injEq] at h
    obtain ⟨h1, h2⟩ := h
    rw [← h1, ← h2]
    exact ⟨rfl, rfl⟩
  | succ rem' ih =>
    intro i ds used next ds' used' h
    cases hg : destFields.get? i with
    | none =>
      simp only [pass2From, hg, Option.some.injEq, Prod.mk.injEq] at h
      obtain ⟨h1, h2⟩ := h
      rw [← h1, ← h2]
      exact ⟨rfl, rfl⟩
    | some destElt =>
      simp only [pass2From, hg] at h
      split at h
      · exact ih (i + 1) ds used next ds' used' h
      · split at h
        · split at h
          · exact absurd h (by simp)
          · have := ih (i + 1) (ds.set i (-2)) used _ ds' used' h
            simpa [List.length_set] using this
        · have := ih (i + 1) _ (used.set _ true) _ ds' used' h
          simpa [List.length_set] using this

/-- A successful pass 2 leaves destination slots below the loop index
untouched. -/
theorem pass2From_frame_lt (identList : List Identifier)
    (destFields : List TupleTypeElt) (n : Nat) :
    ∀ (rem i : Nat) (ds : List Int) (used : List Bool) (next : Nat)
      (ds' : List Int) (used' : List Bool) (k : Nat) (d : Int),
      pass2From identList destFields n rem i ds used next =
        some (ds', used') →
      k < i → ds'.getD k d = ds.getD k d := by
  intro rem
  induction rem with
  | zero =>
    intro i ds used next ds' used' k d h _
    simp only [pass2From, Option.some.injEq, Prod.mk.injEq] at h
    rw [← h.1]
  | succ rem' ih =>
    intro i ds used next ds' used' k d h hk
    cases hg : destFields.get? i with
    | none =>
      simp only [pass2From, hg, Option.some.injEq, Prod.mk.injEq] at h
      rw [← h.1]
    | some destElt =>
      simp only [pass2From, hg] at h
      split at h
      · exact ih (i + 1) ds used next ds' used' k d h (by omega)
      · split at h
        · split at h
          · exact absurd h (by simp)
          · rw [ih (i + 1) (ds.set i (-2)) used _ ds' used' k d h (by omega)]
            exact getD_set_ne ds i k _ d (by omega)
        · rw [ih (i + 1) _ _ _ ds' used' k d h (by omega)]
          exact getD_set_ne ds i k _ d (by omega)

/-- After a successful pass 2, every destination slot in the processed
range holds either the use-default marker `-2` or a nonnegative source
index — never the unresolved marker `-1`. -/
theorem pass2From_resolved (identList : List Identifier)
    (destFields : List TupleTypeElt) (n : Nat) :
    ∀ (rem i : Nat) (ds : List Int) (used : List Bool) (next : Nat)
      (ds' : List Int) (used' : List Bool),
      pass2From identList destFields n rem i ds used next =
        some (ds', used') →
      destFields.length ≤ ds.length →
      (∀ k, i ≤ k → k < destFields.length →
        ds.getD k (-1) = -1 ∨ ds.getD k (-1) = -2 ∨ 0 ≤ ds.getD k (-1)) →
      ∀ k, i ≤ k → k < destFields.length → k < i + rem →
        ds'.getD k (-1) = -2 ∨ 0 ≤ ds'.getD k (-1) := by
  intro rem
  induction rem with
  | zero => intro i ds used next ds' used' _ _ _ k h1 _ h3; omega
  | succ rem' ih =>
    intro i ds used next ds' used' h hlen hinv k hik hklen hkrem
    have hilen : i < destFields.length := by omega
    cases hg : destFields.get? i with
    | none =>
      exfalso
      have := List.get?_eq_none.mp hg
      omega
    | some destElt =>
      simp only [pass2From, hg] at h
      split at h
      · next hres =>
        by_cases hki : k = i
        · subst hki
          rw [pass2From_frame_lt identList destFields n rem' (k + 1) ds used
            _ ds' used' k (-1) h (by omega)]
          rcases hinv k (by omega) hklen with hm1 | hrest
          · exfalso
            rw [hm1] at hres
            simp at hres
          · exact hrest
        · exact ih (i + 1) ds used _ ds' used' h hlen
            (fun m hm1 hm2 => hinv m (by omega) hm2) k (by omega) hklen
            (by omega)
      · split at h
        · split at h
          · exact absurd h (by simp)
          · by_cases hki : k = i
            · subst hki
              rw [pass2From_frame_lt identList destFields n rem' (k + 1)
                (ds.set k (-2)) used _ ds' used' k (-1) h (by omega)]
              left
              exact getD_set_self ds k (-2) (-1) (by omega)
            · refine ih (i + 1) (ds.set i (-2)) used _ ds' used' h
                (by rw [List.length_set]; exact hlen) ?_ k (by omega) hklen
                (by omega)
              intro m hm1 hm2
              rw [getD_set_ne ds i m (-2) (-1) (by omega)]
              exact hinv m (by omega) hm2
        · next hscan =>
          by_cases hki : k = i
          · subst hki
            rw [pass2From_frame_lt identList destFields n rem' (k + 1)
              (ds.set k _) (used.set _ true) _ ds' used' k (-1) h
              (by omega)]
            right
            rw [getD_set_self ds k _ (-1) (by omega)]
            exact Int.ofNat_nonneg _
          · refine ih (i + 1) (ds.set i _) (used.set _ true) _ ds' used' h
              (by rw [List.length_set]; exact hlen) ?_ k (by omega) hklen
              (by omega)
            intro m hm1 hm2
            rw [getD_set_ne ds i m _ (-1) (by omega)]
            exact hinv m (by omega) hm2

/-- Lengths of the arrays produced by a successful reconciliation. -/
theorem reconcileSources_lengths (E : Expr) (n : Nat)
    (destFields : List TupleTypeElt) (ds : List Int) (used : List Bool)
    (h : reconcileSources E n destFields = some (ds, used)) :
    ds.length = destFields.length ∧ used.length = n := by
  simp only [reconcileSources] at h
  split at h
  · have hp := pass1From_lengths (identListOf E n) n destFields
      destFields.length 0 (List.replicate destFields.length (-1))
      (List.replicate n false)
    have h2 := pass2From_lengths (identListOf E n) destFields n
      destFields.length 0 _ _ 0 ds used h
    obtain ⟨hp1, hp2⟩ := hp
    obtain ⟨hq1, hq2⟩ := h2
    simp only [List.length_replicate] at hp1 hp2
    exact ⟨by omega, by omega⟩
  · have h2 := pass2From_lengths (identListOf E n) destFields n
      destFields.length 0 _ _ 0 ds used h
    obtain ⟨hq1, hq2⟩ := h2
    simp only [List.length_replicate] at hq1 hq2
    exact ⟨hq1, hq2⟩

/-- After a successful reconciliation every destination slot is resolved:
it holds the use-default marker or a nonnegative source index. -/
theorem reconcileSources_resolved (E : Expr) (n : Nat)
    (destFields : List TupleTypeElt) (ds : List Int) (used : List Bool)
    (h : reconcileSources E n destFields = some (ds, used)) :
    ∀ k, k < destFields.length →
      ds.getD k (-1) = -2 ∨ 0 ≤ ds.getD k (-1) := by
  intro k hk
  simp only [reconcileSources] at h
  split at h
  · have hp := pass1From_lengths (identListOf E n) n destFields
      destFields.length 0 (List.replicate destFields.length (-1))
      (List.replicate n false)
    refine pass2From_resolved (identListOf E n) destFields n
      destFields.length 0 _ _ 0 ds used h ?_ ?_ k (by omega) hk (by omega)
    · obtain ⟨hp1, _⟩ := hp
      simp only [List.length_replicate] at hp1
      omega
    · intro m _ hm2
      rcases pass1From_values (identListOf E n) n destFields
        destFields.length 0 (List.replicate destFields.length (-1))
        (List.replicate n false) m (-1) with heq | ⟨j, hj⟩
      · left
        rw [heq]
        exact getD_replicate destFields.length m (-1) (-1) hm2
      · right
        right
        rw [hj]
        exact Int.ofNat_nonneg j
  · refine pass2From_resolved (identListOf E n) destFields n
      destFields.length 0 _ _ 0 ds used h ?_ ?_ k (by omega) hk (by omega)
    · simp
    · intro m _ hm2
      left
      exact getD_replicate destFields.length m (-1) (-1) hm2

/-- C4: the reconciliation never reports a non-`Invalid` rank while a
source element remains unused or a destination field remains unbound:
success implies the binding passes succeeded, every one of the `n` source
elements is marked used, and every destination field is bound to a source
element (nonnegative index) or to "use default" (`-2`); extra arguments
make the result `Invalid`, e.g. destination `(Int)` against literal
`(1, 2)` (`Expr.cpp` lines 144-185). -/
theorem claim4_success_consumes_everything :
    (∀ (E : Expr) (n : Nat) (destFields : List TupleTypeElt),
       getTupleToTupleTypeConversionRank E n destFields ≠ .invalid →
       ∃ (ds : List Int) (used : List Bool),
         reconcileSources E n destFields = some (ds, used) ∧
         used.length = n ∧
         used.all (fun b => b) = true ∧
         ∀ i, i < destFields.length →
           ds.getD i (-1) = -2 ∨ 0 ≤ ds.getD i (-1)) ∧
    getConversionRank exPairLit (.tuple [exUnnamedInt]) = .invalid := by
  constructor
  · intro E n destFields h
    cases hrec : reconcileSources E n destFields with
    | none =>
      exfalso
      apply h
      rw [getTupleToTupleTypeConversionRank.eq_def, hrec]
    | some p =>
      obtain ⟨ds, used⟩ := p
      refine ⟨ds, used, rfl, (reconcileSources_lengths E n destFields ds
        used hrec).2, ?_, fun i hi => reconcileSources_resolved E n
        destFields ds used hrec i hi⟩
      cases hall : used.all (fun b => b) with
      | true => rfl
      | false =>
        exfalso
        apply h
        rw [getTupleToTupleTypeConversionRank.eq_def, hrec]
        simp [hall]
  · simp [getConversionRank, getTupleToTupleTypeConversionRank,
      reconcileSources, identListOf, pass1From, pass2From, scanForUnnamed,
      findNamedInputFrom, tupleLiteralRankLoop, structuralLoop,
      tupleFieldsOfTy, exPairLit, exLit, exUnnamedInt, exIntTy, Expr.ty,
      Ty.beq, TupleTypeElt.beqList, TupleTypeElt.beq, getCanonicalType,
      groupingSub, isTupleExpr, numSubExprsOf, TupleTypeElt.name, TupleTypeElt.ty,
      TupleTypeElt.hasInit, getFieldForScalarInit, List.getD, List.get?,
      Int.toNat, crMax, ConversionRank.toNat, List.replicate, List.all,
      List.set, List.filter, List.findIdx, List.findIdx.go, String.isEmpty]

/-- Witness for C4 at the swizzle input, whose reconciliation succeeds
with rank `Identity`. -/
theorem claim4_witness :
    ∃ (ds : List Int) (used : List Bool),
      reconcileSources exSwizzleLit 2 exSwizzleDest = some (ds, used) ∧
      used.length = 2 ∧
      used.all (fun b => b) = true ∧
      ∀ i, i < exSwizzleDest.length →
        ds.getD i (-1) = -2 ∨ 0 ≤ ds.getD i (-1) :=
  claim4_success_consumes_everything.1 exSwizzleLit 2 exSwizzleDest
    (by
      have heval : getTupleToTupleTypeConversionRank exSwizzleLit 2
          exSwizzleDest = .identity := by
        simp [getConversionRank, getTupleToTupleTypeConversionRank,
          reconcileSources, identListOf, pass1From, pass2From,
          scanForUnnamed, findNamedInputFrom, tupleLiteralRankLoop,
          structuralLoop, tupleFieldsOfTy, exSwizzleLit, exSwizzleDest,
          exLit, exIntTy, Expr.ty, Ty.beq, TupleTypeElt.beqList,
          TupleTypeElt.beq, getCanonicalType, groupingSub, isTupleExpr,
          numSubExprsOf, TupleTypeElt.name, TupleTypeElt.ty, TupleTypeElt.hasInit,
          getFieldForScalarInit, List.getD, List.get?, Int.toNat, crMax,
          ConversionRank.toNat, List.replicate, List.all, List.set,
          List.filter, List.findIdx, List.findIdx.go, String.isEmpty]
      rw [heval]
      simp)

/-- A defaulted `getD` read agrees with a successful `get?`. -/
theorem getD_eq_of_get? {α : Type} (l : List α) (i : Nat) (a d : α)
    (h : l.get? i = some a) : l.getD i d = a := by
  have hlt := get?_some_lt l i a h
  have h2 := get?_eq_getD l i d hlt
  rw [h] at h2
  exact (Option.some.inj h2).symm

/-- A use-default pair contributes nothing. -/
theorem specLiteralPairRank_eq_none (subExprs : List (Option Expr))
    (p : TupleTypeElt × Int) (h : p.2 = -2) :
    specLiteralPairRank subExprs p = none := by
  simp only [specLiteralPairRank, h]
  rfl

/-- A pair bound to an actual source element contributes that element's
recursive rank. -/
theorem specLiteralPairRank_eq_some (subExprs : List (Option Expr))
    (p : TupleTypeElt × Int) (elt : Expr) (h1 : p.2 ≠ -2)
    (h2 : subExprs.getD p.2.toNat none = some elt) :
    specLiteralPairRank subExprs p =
      some (getConversionRank elt p.1.ty) := by
  simp only [specLiteralPairRank]
  rw [if_neg (fun hc => h1 (beq_iff_eq.mp hc)), h2]

/-- A skipped pair contributes nothing to the specification fold. -/
theorem filterMap_foldl_cons_none {α β γ : Type} (f : α → Option β)
    (g : γ → β → γ) (p : α) (rest : List α) (cur : γ)
    (h : f p = none) :
    (List.filterMap f (p :: rest)).foldl g cur =
      (List.filterMap f rest).foldl g cur := by
  rw [List.filterMap_cons, h]

/-- A contributing pair folds its value into the accumulator. -/
theorem filterMap_foldl_cons_some {α β γ : Type} (f : α → Option β)
    (g : γ → β → γ) (p : α) (rest : List α) (cur : γ) (v : β)
    (h : f p = some v) :
    (List.filterMap f (p :: rest)).foldl g cur =
      (List.filterMap f rest).foldl g (g cur v) := by
  rw [List.filterMap_cons, h, List.foldl_cons]

/-- The literal-mode rank loop computes the specification's fold: the
maximum of the ranks of the bound source elements against their field
types, skipping use-default fields, starting from the accumulator. -/
theorem tupleLiteralRankLoop_eq_spec (subExprs : List (Option Expr))
    (destFields : List TupleTypeElt) (ds : List Int) :
    ∀ (rem i : Nat) (cur : ConversionRank),
      i + rem = destFields.length →
      destFields.length ≤ ds.length →
      (∀ k, i ≤ k → k < destFields.length →
        ds.getD k (-1) = -2 ∨
        ∃ e, subExprs.get? (ds.getD k (-1)).toNat = some (some e)) →
      tupleLiteralRankLoop subExprs destFields ds rem i cur =
        (((destFields.drop i).zip (ds.drop i)).filterMap
          (specLiteralPairRank subExprs)).foldl crMax cur := by
  intro rem
  induction rem with
  | zero =>
    intro i cur hlen _ _
    have hi : i = destFields.length := by omega
    subst hi
    rw [List.drop_length]
    simp only [tupleLiteralRankLoop]
    rfl
  | succ rem' ih =>
    intro i cur hlen hdslen hrange
    have hilt : i < destFields.length := by omega
    simp only [tupleLiteralRankLoop]
    split
    · next hd =>
      exfalso
      have := List.get?_eq_none.mp hd
      omega
    · next destElt hd =>
      have h1 : destFields.drop i = destElt :: destFields.drop (i + 1) := by
        rw [getD_cons_drop destFields i destElt hilt,
          getD_eq_of_get? destFields i destElt destElt hd]
      have h2 : ds.drop i = ds.getD i (-1) :: ds.drop (i + 1) :=
        getD_cons_drop ds i (-1) (by omega)
      rw [h1, h2, List.zip_cons_cons]
      by_cases hm2 : ds.getD i (-1) = -2
      · rw [if_pos (by rw [hm2]; rfl)]
        rw [filterMap_foldl_cons_none (specLiteralPairRank subExprs) crMax
          _ _ cur (specLiteralPairRank_eq_none subExprs _ hm2)]
        exact ih (i + 1) cur (by omega) hdslen
          (fun k hk1 hk2 => hrange k (by omega) hk2)
      · rcases hrange i (by omega) hilt with hc | ⟨e, he⟩
        · exact absurd hc hm2
        · have hgetD : subExprs.getD (ds.getD i (-1)).toNat none =
              some e := getD_eq_of_get? subExprs _ (some e) none he
          rw [if_neg (fun hc => hm2 (beq_iff_eq.mp hc))]
          rw [filterMap_foldl_cons_some (specLiteralPairRank subExprs) crMax
            _ _ cur (getConversionRank e destElt.ty)
            (specLiteralPairRank_eq_some subExprs _ e hm2 hgetD)]
          split
          · next elt hs =>
            rw [he] at hs
            cases Option.some.inj (Option.some.inj hs)
            exact ih (i + 1) (crMax cur (getConversionRank e destElt.ty))
              (by omega) hdslen (fun k hk1 hk2 => hrange k (by omega) hk2)
          · next hother =>
            exfalso
            rw [he] at hother
            simp at hother

/-- Counterexample for C1: the single-element (non-grouping) tuple literal
`(.x = v)` converted to `(x : () -> Int)` reconciles successfully
(element 0 bound to field `x`), and literal-mode ranking would yield
`AutoClosure`; but because the literal's element count is 1 the code takes
the structural path and returns `Invalid`. -/
theorem claim1_counterexample :
    reconcileSources exC1Lit 1 exC1Dest = some ([0], [true]) ∧
    specLiteralModeRank [some (.declRef "v" exIntTy)] exC1Dest [0] =
      .autoClosure ∧
    getConversionRank exC1Lit (.tuple exC1Dest) = .invalid := by
  refine ⟨by rfl, ?_, ?_⟩
  · simp [specLiteralModeRank, specLiteralPairRank, getConversionRank,
      getCanonicalType, Ty.beq, TupleTypeElt.beqList, TupleTypeElt.beq,
      exC1Dest, exIntTy, exFnTy, Expr.ty, groupingSub, isTupleExpr,
      TupleTypeElt.ty, TupleTypeElt.name, getFieldForScalarInit, crMax,
      ConversionRank.toNat, List.getD, List.get?, Int.toNat, List.filter,
      List.findIdx, List.findIdx.go, String.isEmpty]
  · simp [getConversionRank, getTupleToTupleTypeConversionRank,
      reconcileSources, identListOf, pass1From, pass2From, scanForUnnamed,
      findNamedInputFrom, tupleLiteralRankLoop, structuralLoop,
      tupleFieldsOfTy, exC1Lit, exC1Dest, exIntTy, exFnTy, Expr.ty, Ty.beq,
      TupleTypeElt.beqList, TupleTypeElt.beq, getCanonicalType, groupingSub,
      isTupleExpr, numSubExprsOf, TupleTypeElt.name, TupleTypeElt.ty,
      TupleTypeElt.hasInit, getFieldForScalarInit, List.getD, List.get?,
      Int.toNat, crMax, ConversionRank.toNat, List.replicate, List.all,
      List.set, List.filter, List.findIdx, List.findIdx.go, String.isEmpty]

/-- C1 (amended): a tuple literal converted to a tuple destination type is
ranked in literal mode — each destination field bound to an actual source
element contributes the recursive rank of that element against the field's
type, fields bound to "use default" are skipped, and the result is the
maximum of the contributions (`Identity` when there are none) — only when
the literal's element count differs from 1 and equals the destination
field count; otherwise even a tuple literal falls back to structural-mode
checking (`Expr.cpp` lines 190-214). -/
theorem claim1_literal_mode_amended :
    ∀ (subExprs : List (Option Expr)) (g : Bool) (ety : Ty) (n : Nat)
      (destFields : List TupleTypeElt) (ds : List Int) (used : List Bool),
      reconcileSources (.tuple subExprs g ety) n destFields =
        some (ds, used) →
      used.all (fun b => b) = true →
      subExprs.length ≠ 1 →
      subExprs.length = destFields.length →
      (∀ k, k < destFields.length →
        ds.getD k (-1) = -2 ∨
        ∃ e, subExprs.get? (ds.getD k (-1)).toNat = some (some e)) →
      getTupleToTupleTypeConversionRank (.tuple subExprs g ety) n
        destFields = specLiteralModeRank subExprs destFields ds := by
  intro subExprs g ety n destFields ds used hrec hall hne hleneq hrange
  have hlens := reconcileSources_lengths _ _ _ _ _ hrec
  rw [getTupleToTupleTypeConversionRank.eq_def, hrec]
  simp only [hall, Bool.not_true, Bool.false_eq_true, if_false]
  rw [if_pos (by
    rw [Bool.and_eq_true]
    exact ⟨bne_iff_ne.mpr hne, beq_iff_eq.mpr hleneq⟩)]
  rw [tupleLiteralRankLoop_eq_spec subExprs destFields ds destFields.length
    0 .identity (by omega) (by omega) (fun k _ hk => hrange k hk)]
  simp only [specLiteralModeRank, List.drop_zero]

/-- Witness for the amended C1 at the swizzle literal `(.y = 4, .x = 3)`
against `(x : Int, y : Int)`: two elements, two fields, literal mode
applies and the rank is the fold of the element ranks. -/
theorem claim1_amended_witness :
    getTupleToTupleTypeConversionRank exSwizzleLit 2 exSwizzleDest =
      specLiteralModeRank [some (exLit "4"), some (exLit "3")]
        exSwizzleDest [1, 0] :=
  claim1_literal_mode_amended [some (exLit "4"), some (exLit "3")] false
    (.tuple [.mk "y" exIntTy false, .mk "x" exIntTy false]) 2 exSwizzleDest
    [1, 0] [true, true] (by rfl) (by rfl) (by decide) (by rfl)
    (by
      intro k hk
      match k, hk with
      | 0, _ => exact Or.inr ⟨exLit "3", rfl⟩
      | 1, _ => exact Or.inr ⟨exLit "4", rfl⟩
      | m + 2, hk2 =>
        exfalso
        have h2 : exSwizzleDest.length = 2 := rfl
        omega)

/-- The structural-mode loop computes the specification's all-pairs check:
`Identity` exactly when every bound pair agrees canonically, `Invalid`
otherwise. -/
theorem structuralLoop_eq_spec (etyFields destFields : List TupleTypeElt)
    (ds : List Int) :
    ∀ (rem i : Nat), i + rem = destFields.length →
      destFields.length ≤ ds.length →
      structuralLoop etyFields destFields ds rem i =
        (if (((destFields.drop i).zip (ds.drop i)).filter
              (fun p => p.2 != -2)).all (specStructuralPairOk etyFields)
         then .identity else .invalid) := by
  intro rem
  induction rem with
  | zero =>
    intro i hlen _
    have hi : i = destFields.length := by omega
    subst hi
    rw [List.drop_length]
    simp only [structuralLoop]
    rfl
  | succ rem' ih =>
    intro i hlen hdslen
    have hilt : i < destFields.length := by omega
    simp only [structuralLoop]
    split
    · next hd =>
      exfalso
      have := List.get?_eq_none.mp hd
      omega
    · next destElt hd =>
      have h1 : destFields.drop i = destElt :: destFields.drop (i + 1) := by
        rw [getD_cons_drop destFields i destElt hilt,
          getD_eq_of_get? destFields i destElt destElt hd]
      have h2 : ds.drop i = ds.getD i (-1) :: ds.drop (i + 1) :=
        getD_cons_drop ds i (-1) (by omega)
      rw [h1, h2, List.zip_cons_cons, List.filter_cons]
      by_cases hm2 : ds.getD i (-1) = -2
      · rw [if_pos (by rw [hm2]; rfl)]
        rw [if_neg (fun hc => absurd hm2 (bne_iff_ne.mp hc))]
        exact ih (i + 1) (by omega) hdslen
      · rw [if_neg (fun hc => hm2 (beq_iff_eq.mp hc))]
        rw [if_pos (bne_iff_ne.mpr hm2)]
        split
        · next hs =>
          have hok : specStructuralPairOk etyFields
              (destElt, ds.getD i (-1)) = false := by
            simp only [specStructuralPairOk]
            rw [hs]
          rw [List.all_cons, hok, Bool.false_and]
          rw [if_neg (by simp)]
        · next srcElt hs =>
          have hok : specStructuralPairOk etyFields
              (destElt, ds.getD i (-1)) =
              Ty.beq (getCanonicalType srcElt.ty)
                (getCanonicalType destElt.ty) := by
            simp only [specStructuralPairOk]
            rw [hs]
          split
          · next hbeq =>
            rw [ih (i + 1) (by omega) hdslen]
            rw [List.all_cons, hok, hbeq, Bool.true_and]
          · next hbeq =>
            rw [List.all_cons, hok]
            rw [if_neg (by
              intro hc
              rw [Bool.and_eq_true] at hc
              exact hbeq hc.1)]

/-- C5: in structural mode (the in-place literal branch does not apply and
the source expression's static type is a tuple type), every destination
field bound to an actual source element must have its bound element's type
canonically equal to the field's type; any mismatch yields `Invalid` and
full agreement yields `Identity` — no per-element value conversion happens
on this path (`Expr.cpp` lines 216-235). -/
theorem claim5_structural_mode_exact :
    ∀ (E : Expr) (n : Nat) (destFields : List TupleTypeElt)
      (ds : List Int) (used : List Bool) (etyFields : List TupleTypeElt),
      reconcileSources E n destFields = some (ds, used) →
      used.all (fun b => b) = true →
      usesLiteralBranch E destFields = false →
      E.ty = .tuple etyFields →
      getTupleToTupleTypeConversionRank E n destFields =
        specStructuralModeRank etyFields destFields ds := by
  intro E n destFields ds used etyFields hrec hall hlit hty
  have hlens := reconcileSources_lengths _ _ _ _ _ hrec
  rw [getTupleToTupleTypeConversionRank.eq_def, hrec]
  simp only [hall, Bool.not_true, Bool.false_eq_true, if_false]
  cases E with
  | tuple subExprs g2 ety2 =>
    simp only [Expr.ty] at hty
    subst hty
    simp only [usesLiteralBranch] at hlit
    simp only [Expr.ty, tupleFieldsOfTy]
    rw [if_neg (by rw [hlit]; simp)]
    rw [structuralLoop_eq_spec etyFields destFields ds destFields.length 0
      (by omega) (by omega)]
    simp only [specStructuralModeRank, List.drop_zero]
  | integerLiteral _ t =>
    simp only [Expr.ty] at hty
    subst hty
    simp only [Expr.ty, tupleFieldsOfTy]
    rw [structuralLoop_eq_spec etyFields destFields ds destFields.length 0
      (by omega) (by omega)]
    simp only [specStructuralModeRank, List.drop_zero]
  | declRef _ t =>
    simp only [Expr.ty] at hty
    subst hty
    simp only [Expr.ty, tupleFieldsOfTy]
    rw [structuralLoop_eq_spec etyFields destFields ds destFields.length 0
      (by omega) (by omega)]
    simp only [specStructuralModeRank, List.drop_zero]
  | overloadSetRef _ t =>
    simp only [Expr.ty] at hty
    subst hty
    simp only [Expr.ty, tupleFieldsOfTy]
    rw [structuralLoop_eq_spec etyFields destFields ds destFields.length 0
      (by omega) (by omega)]
    simp only [specStructuralModeRank, List.drop_zero]
  | unresolvedDeclRef _ t =>
    simp only [Expr.ty] at hty
    subst hty
    simp only [Expr.ty, tupleFieldsOfTy]
    rw [structuralLoop_eq_spec etyFields destFields ds destFields.length 0
      (by omega) (by omega)]
    simp only [specStructuralModeRank, List.drop_zero]
  | unresolvedMember _ t =>
    simp only [Expr.ty] at hty
    subst hty
    simp only [Expr.ty, tupleFieldsOfTy]
    rw [structuralLoop_eq_spec etyFields destFields ds destFields.length 0
      (by omega) (by omega)]
    simp only [specStructuralModeRank, List.drop_zero]
  | unresolvedScopedIdentifier _ _ t =>
    simp only [Expr.ty] at hty
    subst hty
    simp only [Expr.ty, tupleFieldsOfTy]
    rw [structuralLoop_eq_spec etyFields destFields ds destFields.length 0
      (by omega) (by omega)]
    simp only [specStructuralModeRank, List.drop_zero]
  | unresolvedDot _ _ t =>
    simp only [Expr.ty] at hty
    subst hty
    simp only [Expr.ty, tupleFieldsOfTy]
    rw [structuralLoop_eq_spec etyFields destFields ds destFields.length 0
      (by omega) (by omega)]
    simp only [specStructuralModeRank, List.drop_zero]
  | tupleElement _ _ t =>
    simp only [Expr.ty] at hty
    subst hty
    simp only [Expr.ty, tupleFieldsOfTy]
    rw [structuralLoop_eq_spec etyFields destFields ds destFields.length 0
      (by omega) (by omega)]
    simp only [specStructuralModeRank, List.drop_zero]
  | apply _ _ t =>
    simp only [Expr.ty] at hty
    subst hty
    simp only [Expr.ty, tupleFieldsOfTy]
    rw [structuralLoop_eq_spec etyFields destFields ds destFields.length 0
      (by omega) (by omega)]
    simp only [specStructuralModeRank, List.drop_zero]
  | seq _ t =>
    simp only [Expr.ty] at hty
    subst hty
    simp only [Expr.ty, tupleFieldsOfTy]
    rw [structuralLoop_eq_spec etyFields destFields ds destFields.length 0
      (by omega) (by omega)]
    simp only [specStructuralModeRank, List.drop_zero]
  | brace _ t =>
    simp only [Expr.ty] at hty
    subst hty
    simp only [Expr.ty, tupleFieldsOfTy]
    rw [structuralLoop_eq_spec etyFields destFields ds destFields.length 0
      (by omega) (by omega)]
    simp only [specStructuralModeRank, List.drop_zero]
  | closure _ t =>
    simp only [Expr.ty] at hty
    subst hty
    simp only [Expr.ty, tupleFieldsOfTy]
    rw [structuralLoop_eq_spec etyFields destFields ds destFields.length 0
      (by omega) (by omega)]
    simp only [specStructuralModeRank, List.drop_zero]
  | anonClosureArg _ t =>
    simp only [Expr.ty] at hty
    subst hty
    simp only [Expr.ty, tupleFieldsOfTy]
    rw [structuralLoop_eq_spec etyFields destFields ds destFields.length 0
      (by omega) (by omega)]
    simp only [specStructuralModeRank, List.drop_zero]
  | binary _ _ _ t =>
    simp only [Expr.ty] at hty
    subst hty
    simp only [Expr.ty, tupleFieldsOfTy]
    rw [structuralLoop_eq_spec etyFields destFields ds destFields.length 0
      (by omega) (by omega)]
    simp only [specStructuralModeRank, List.drop_zero]

/-- Witness for C5: the non-literal reference of type `(x: Int, y: Int)`
permuted into `(y: Int, x: Int)`. -/
theorem claim5_witness :
    getTupleToTupleTypeConversionRank exPermRef 2 exPermDest =
      specStructuralModeRank exPermSrcFields exPermDest [1, 0] :=
  claim5_structural_mode_exact exPermRef 2 exPermDest [1, 0] [true, true]
    exPermSrcFields (by rfl) (by rfl) (by rfl) (by rfl)
